import Mathlib

/-!
Verification development for the MaCow normalizing-flow repository
(`macow/flows/flow.py`, `macow/flows/macow.py`, `macow/flows/nice.py`,
`macow/models/flow_gen.py`).

Tensors are modelled per sample: a `[channels, H, W]` tensor with
`H = W = 2 ^ n` is a list of channels, each channel a depth-`n` quadtree of
rational values (rationals stand in for the float values of the code, with
exact arithmetic).  The spatial structure only matters through the
space-to-depth `squeeze2d` reshape, which maps one channel at depth `n + 1`
to its four depth-`n` quadrants, exactly the 2x2 space-to-channel reshape.
Log-determinants are one rational per sample.
-/

namespace Macow

/-- A single channel of a spatially square tensor: a quadtree whose leaves
hold the scalar values.  A depth-`n` tree represents a `2^n x 2^n` grid. -/
inductive Plane where
  | leaf (v : ℚ) : Plane
  | node (a b c d : Plane) : Plane
deriving DecidableEq, Repr

/-- The spatial shape of a channel (the quadtree with values erased). -/
inductive PShape where
  | sleaf : PShape
  | snode (a b c d : PShape) : PShape
deriving DecidableEq, Repr

/-- Shape of a plane. -/
def Plane.shape : Plane → PShape
  | .leaf _ => .sleaf
  | .node a b c d => .snode a.shape b.shape c.shape d.shape

/-- Apply a scalar function pointwise to a channel. -/
def Plane.pmap (f : ℚ → ℚ) : Plane → Plane
  | .leaf v => .leaf (f v)
  | .node a b c d => .node (a.pmap f) (b.pmap f) (c.pmap f) (d.pmap f)

/-- Combine two channels pointwise.  Well-formed callers only combine
channels of equal shape; on mismatched shapes the first argument is kept
(the code would raise a broadcasting error there). -/
def Plane.pzip (f : ℚ → ℚ → ℚ) : Plane → Plane → Plane
  | .leaf v, .leaf w => .leaf (f v w)
  | .node a b c d, .node a2 b2 c2 d2 =>
    .node (a.pzip f a2) (b.pzip f b2) (c.pzip f c2) (d.pzip f d2)
  | p, _ => p

/-- All scalar entries of a channel, in row-major-like traversal order. -/
def Plane.toList : Plane → List ℚ
  | .leaf v => [v]
  | .node a b c d => a.toList ++ b.toList ++ c.toList ++ d.toList

/-- Sum of a scalar function over all entries of a channel. -/
def Plane.psum (f : ℚ → ℚ) : Plane → ℚ
  | .leaf v => f v
  | .node a b c d => a.psum f + b.psum f + c.psum f + d.psum f

/-- A per-sample tensor: the list of channels. -/
abbrev Tensor := List Plane

/-- The channelwise shape of a tensor. -/
def Tensor.shape (t : Tensor) : List PShape := t.map Plane.shape

/-- Pointwise unary operation on a tensor. -/
def Tensor.tmap (f : ℚ → ℚ) (t : Tensor) : Tensor := t.map (Plane.pmap f)

/-- Pointwise binary operation on two tensors (channel lists zipped). -/
def Tensor.tzip (f : ℚ → ℚ → ℚ) (a b : Tensor) : Tensor :=
  List.zipWith (Plane.pzip f) a b

/-- `t.view(-1)`: all scalar entries of a tensor. -/
def Tensor.flatten (t : Tensor) : List ℚ := (t.map Plane.toList).join

/-- Sum of a scalar function over every entry of a tensor. -/
def Tensor.tsumF (f : ℚ → ℚ) (t : Tensor) : ℚ :=
  (t.map (Plane.psum f)).sum

/-- `squeeze2d` on one channel: the four spatial quadrants of a depth-`n+1`
channel become four depth-`n` channels.  A depth-0 channel (single pixel)
cannot be squeezed; the code would raise a shape error, modelled by `none`.
Modelled from the spec: `squeeze2d` lives in `macow/utils.py`, which is not
part of the sources; the spec describes it as the reversible 2x
space-to-depth reshape (halve H and W, quadruple channels). -/
def squeezeChan : Plane → Option (List Plane)
  | .leaf _ => none
  | .node a b c d => some [a, b, c, d]

/-- `squeeze2d(x, factor=2)`: every channel is replaced by its four
quadrants, quadrupling the channel count.
Modelled from the spec (`macow/utils.py` is not in the sources). -/
def squeeze2d : Tensor → Option Tensor
  | [] => some []
  | p :: rest => do
    let l ← squeezeChan p
    let r ← squeeze2d rest
    pure (l ++ r)

/-- `unsqueeze2d(x, factor=2)`: inverse reshape, consuming channels four at
a time.  A channel count not divisible by 4 is a shape error (`none`).
Modelled from the spec (`macow/utils.py` is not in the sources). -/
def unsqueeze2d : Tensor → Option Tensor
  | [] => some []
  | a :: b :: c :: d :: rest =>
    (unsqueeze2d rest).map (fun r => Plane.node a b c d :: r)
  | _ => none

/-- `split2d(x, z1_channels)`: channel partition into the first
`n` channels and the rest; `none` when fewer than `n` channels exist
(the torch split would raise).
Modelled from the spec (`macow/utils.py` is not in the sources). -/
def split2d (t : Tensor) (n : ℕ) : Option (Tensor × Tensor) :=
  if n ≤ t.length then some (t.take n, t.drop n) else none

/-- `unsplit2d(xs)`: concatenation along the channel dimension.
Modelled from the spec (`macow/utils.py` is not in the sources). -/
def unsplit2d (ts : List Tensor) : Tensor := ts.join

/-- Squeeze an optional conditioning tensor (`if s is not None: s = squeeze2d(s)`). -/
def squeezeS : Option Tensor → Option (Option Tensor)
  | none => some none
  | some s => (squeeze2d s).map some

/-- Unsqueeze an optional conditioning tensor. -/
def unsqueezeS : Option Tensor → Option (Option Tensor)
  | none => some none
  | some s => (unsqueeze2d s).map some

/-- Remove the last element of a list (`outputs.pop()` in python):
fails on the empty list. -/
def popLast {α : Type} (l : List α) : Option (α × List α) :=
  match l.getLast? with
  | none => none
  | some a => some (a, l.dropLast)

/-!
### Elementary flow contracts

`ActNorm2dFlow` (`macow/flows/actnorm.py`), `MaskedConvFlow`
(`macow/flows/conv.py`) and `GlowStep` / `Prior` (`macow/flows/glow.py`) are
not among the sources.  They are modelled from the spec: each is a flow with
`forward`, `backward` and `init` operations such that `backward` is the
exact inverse of `forward` with negated log-determinant
("backward(forward(x)) == x ... and logdet_backward = -logdet_forward"),
and each preserves the `[batch, channels, H, W]` shape, in particular the
channel count. -/

/-- Modelled from the spec: contract of an unconditional elementary flow
(`ActNorm2dFlow` from the missing `macow/flows/actnorm.py`). -/
structure AFlow where
  forward : Tensor → Tensor × ℚ
  backward : Tensor → Tensor × ℚ
  init : Tensor → ℚ → Tensor × ℚ
  bwd_fwd : ∀ x, backward (forward x).1 = (x, -(forward x).2)
  fwd_len : ∀ x, ((forward x).1).length = x.length

/-- Modelled from the spec: contract of a conditional elementary flow
(`MaskedConvFlow` from the missing `macow/flows/conv.py`, and `GlowStep`
from the missing `macow/flows/glow.py`). -/
structure CFlow where
  forward : Tensor → Option Tensor → Tensor × ℚ
  backward : Tensor → Option Tensor → Tensor × ℚ
  init : Tensor → Option Tensor → ℚ → Tensor × ℚ
  bwd_fwd : ∀ x s, backward (forward x s).1 s = (x, -(forward x s).2)
  fwd_len : ∀ x s, ((forward x s).1).length = x.length

/-- The identity flow: a concrete inhabitant of the `AFlow` contract. -/
def idAFlow : AFlow where
  forward := fun x => (x, 0)
  backward := fun x => (x, 0)
  init := fun x _ => (x, 0)
  bwd_fwd := fun x => by simp
  fwd_len := fun x => rfl

/-- The identity flow: a concrete inhabitant of the `CFlow` contract. -/
def idCFlow : CFlow where
  forward := fun x _ => (x, 0)
  backward := fun x _ => (x, 0)
  init := fun x _ _ => (x, 0)
  bwd_fwd := fun x s => by simp
  fwd_len := fun x s => rfl

/-- Modelled from the spec: the `Prior` of the missing `macow/flows/glow.py`
is a flow on the full tensor together with the channel count
`z1_channels` retained after the split; by the assertion at
`macow/flows/macow.py:249`, `Prior(in_channels, ..., factor)` has
`z1_channels = in_channels - in_channels // factor`. -/
structure PriorF where
  flow : CFlow
  z1_channels : ℕ

/-- `Prior(in_channels, ..., factor=factor)` given an arbitrary family `g`
of contract-satisfying flows. -/
def mkPrior (g : ℕ → ℕ → CFlow) (in_channels factor : ℕ) : PriorF :=
  ⟨g in_channels factor, in_channels - in_channels / factor⟩

/-!
### `macow/flows/flow.py`: the `Flow` base class

`fwdpass` / `bwdpass` are the direction-selecting adapters.  The
`RuntimeError` raised on adapter misuse is modelled by `none`. -/

/-- A flow with the static `inverse` flag, as held by `Flow.__init__`.
The three operations are the per-sample semantics of the concrete
subclass. -/
structure FlowM where
  inverse : Bool
  forward : Tensor → Option Tensor → Tensor × ℚ
  backward : Tensor → Option Tensor → Tensor × ℚ
  init : Tensor → Option Tensor → ℚ → Tensor × ℚ

/-- `Flow.fwdpass(x, *h, init, init_scale)`: dispatch on the `inverse`
flag, raising (`none`) when an inverse flow is asked to run its
initialization through the forward pass; all successful branches return
`logdet.mul(-1.0)`. -/
def FlowM.fwdpass (f : FlowM) (x : Tensor) (h : Option Tensor)
    (init : Bool) (init_scale : ℚ) : Option (Tensor × ℚ) :=
  (if f.inverse then
    if init then none
    else some (f.backward x h)
  else
    if init then some (f.init x h init_scale)
    else some (f.forward x h)).map (fun p => (p.1, -p.2))

/-- `Flow.bwdpass(y, *h, init, init_scale)`: the mirror adapter; the
log-determinant is returned unchanged. -/
def FlowM.bwdpass (f : FlowM) (y : Tensor) (h : Option Tensor)
    (init : Bool) (init_scale : ℚ) : Option (Tensor × ℚ) :=
  if f.inverse then
    if init then some (f.init y h init_scale)
    else some (f.forward y h)
  else
    if init then none
    else some (f.backward y h)

/-!
### `macow/flows/macow.py`: units, steps, blocks and the pyramid -/

/-- The sequential accumulation loop shared by all composite forward /
backward / init passes: thread the tensor through `f` for every element of
`xs`, adding the returned log-determinants onto `ld0`
(`out, logdet = f(...); logdet_accum = logdet_accum + logdet`). -/
def runFwd {α : Type} (f : α → Tensor → Option Tensor → Tensor × ℚ)
    (xs : List α) (input : Tensor) (s : Option Tensor) (ld0 : ℚ) : Tensor × ℚ :=
  xs.foldl (fun acc a => let q := f a acc.1 s; (q.1, acc.2 + q.2)) (input, ld0)

/-- `MaCowUnit`: two actnorms and four masked convolutions.  The orders
`A`/`B`/`C`/`D` and the kernel transposition live in the construction
function `mkMaCowUnit`. -/
structure MaCowUnitM where
  actnorm1 : AFlow
  actnorm2 : AFlow
  conv1 : CFlow
  conv2 : CFlow
  conv3 : CFlow
  conv4 : CFlow

/-- Mask order tag of a `MaskedConvFlow` (`order='A'|'B'|'C'|'D'`). -/
inductive MCOrder where
  | A | B | C | D
deriving DecidableEq, Repr

/-- `MaCowUnit.__init__(in_channels, kernel_size, s_channels, ...)`:
`conv1`/`conv2` use kernel `(k0, k1)` with orders `A`/`B`, while
`conv3`/`conv4` use the transposed kernel `(k1, k0)` with orders `C`/`D`.
`mkConv ks ord` stands for
`MaskedConvFlow(in_channels, ks, s_channels, order=ord, ...)` and
`mkNorm j` for the `j`-th `ActNorm2dFlow(in_channels)`. -/
def mkMaCowUnit (mkNorm : ℕ → AFlow) (mkConv : ℕ × ℕ → MCOrder → CFlow)
    (kernel_size : ℕ × ℕ) : MaCowUnitM where
  actnorm1 := mkNorm 1
  actnorm2 := mkNorm 2
  conv1 := mkConv (kernel_size.1, kernel_size.2) .A
  conv2 := mkConv (kernel_size.1, kernel_size.2) .B
  conv3 := mkConv (kernel_size.2, kernel_size.1) .C
  conv4 := mkConv (kernel_size.2, kernel_size.1) .D

/-- `MaCowUnit.forward`: ActNorm1, MCF1, MCF2, ActNorm2, MCF3, MCF4,
accumulating the log-determinant. -/
def MaCowUnitM.forward (u : MaCowUnitM) (input : Tensor) (s : Option Tensor) :
    Tensor × ℚ :=
  let p1 := u.actnorm1.forward input
  let p2 := u.conv1.forward p1.1 s
  let p3 := u.conv2.forward p2.1 s
  let p4 := u.actnorm2.forward p3.1
  let p5 := u.conv3.forward p4.1 s
  let p6 := u.conv4.forward p5.1 s
  (p6.1, p1.2 + p2.2 + p3.2 + p4.2 + p5.2 + p6.2)

/-- `MaCowUnit.backward`: MCF4, MCF3, ActNorm2, MCF2, MCF1, ActNorm1. -/
def MaCowUnitM.backward (u : MaCowUnitM) (input : Tensor) (s : Option Tensor) :
    Tensor × ℚ :=
  let p1 := u.conv4.backward input s
  let p2 := u.conv3.backward p1.1 s
  let p3 := u.actnorm2.backward p2.1
  let p4 := u.conv2.backward p3.1 s
  let p5 := u.conv1.backward p4.1 s
  let p6 := u.actnorm1.backward p5.1
  (p6.1, p1.2 + p2.2 + p3.2 + p4.2 + p5.2 + p6.2)

/-- `MaCowUnit.init`: same order as `forward`, through the `init`
operations. -/
def MaCowUnitM.init (u : MaCowUnitM) (data : Tensor) (s : Option Tensor)
    (init_scale : ℚ) : Tensor × ℚ :=
  let p1 := u.actnorm1.init data init_scale
  let p2 := u.conv1.init p1.1 s init_scale
  let p3 := u.conv2.init p2.1 s init_scale
  let p4 := u.actnorm2.init p3.1 init_scale
  let p5 := u.conv3.init p4.1 s init_scale
  let p6 := u.conv4.init p5.1 s init_scale
  (p6.1, p1.2 + p2.2 + p3.2 + p4.2 + p5.2 + p6.2)

/-- `MaCowStep`: the units list and the Glow step. -/
structure MaCowStepM where
  units : List MaCowUnitM
  glow_step : CFlow

/-- `MaCowStep.__init__`: `num_units = 2` units followed by one
`GlowStep`. -/
def mkMaCowStep (u1 u2 : MaCowUnitM) (glow : CFlow) : MaCowStepM :=
  ⟨[u1, u2], glow⟩

/-- `MaCowStep.forward`: the units in order, then the Glow step. -/
def MaCowStepM.forward (st : MaCowStepM) (input : Tensor) (s : Option Tensor) :
    Tensor × ℚ :=
  let p := runFwd MaCowUnitM.forward st.units input s 0
  let g := st.glow_step.forward p.1 s
  (g.1, p.2 + g.2)

/-- `MaCowStep.backward`: the Glow step, then the units in reverse
order. -/
def MaCowStepM.backward (st : MaCowStepM) (input : Tensor) (s : Option Tensor) :
    Tensor × ℚ :=
  let g := st.glow_step.backward input s
  runFwd MaCowUnitM.backward st.units.reverse g.1 s g.2

/-- `MaCowStep.init`. -/
def MaCowStepM.init (st : MaCowStepM) (data : Tensor) (s : Option Tensor)
    (init_scale : ℚ) : Tensor × ℚ :=
  let p := runFwd (fun u x s2 => u.init x s2 init_scale) st.units data s 0
  let g := st.glow_step.init p.1 s init_scale
  (g.1, p.2 + g.2)

/-- `MaCowInternalBlock`: the per-layer steps zipped with their priors
(the source keeps two `ModuleList`s of asserted-equal length and zips them
at every use), and the retained channel count after all splits. -/
structure MaCowInternalBlockM where
  layers : List (List MaCowStepM × PriorF)
  z1_channels : ℕ

/-- The layer loop of `MaCowInternalBlock.forward`: run the steps and the
prior, split off the leaked slice, push it, and continue on the retained
slice. -/
def internalFwdLoop :
    List (List MaCowStepM × PriorF) → Tensor → Option Tensor → ℚ →
    List Tensor → Option (Tensor × ℚ × List Tensor)
  | [], out, _, ld, outputs => some (out, ld, outputs)
  | (layer, prior) :: rest, out, s, ld, outputs => do
    let p := runFwd MaCowStepM.forward layer out s ld
    let q := prior.flow.forward p.1 s
    let (out1, out2) ← split2d q.1 prior.z1_channels
    internalFwdLoop rest out1 s (p.2 + q.2) (outputs ++ [out2])

/-- `MaCowInternalBlock.forward`: after the layer loop, append the
retained tensor, reverse, and concatenate. -/
def MaCowInternalBlockM.forward (b : MaCowInternalBlockM) (input : Tensor)
    (s : Option Tensor) : Option (Tensor × ℚ) := do
  let (out, ld, outputs) ← internalFwdLoop b.layers input s 0 []
  pure (unsplit2d ((outputs ++ [out]).reverse), ld)

/-- The first loop of `MaCowInternalBlock.backward`: split off every
prior's leaked slice. -/
def internalBwdSplit :
    List (List MaCowStepM × PriorF) → Tensor → List Tensor →
    Option (Tensor × List Tensor)
  | [], out, outputs => some (out, outputs)
  | (_, prior) :: rest, out, outputs => do
    let (out1, out2) ← split2d out prior.z1_channels
    internalBwdSplit rest out1 (outputs ++ [out2])

/-- The second loop of `MaCowInternalBlock.backward`: over the reversed
layer list, pop a slice, recombine, and run the prior and steps
backwards. -/
def internalBwdLoop :
    List (List MaCowStepM × PriorF) → Tensor → Option Tensor → ℚ →
    List Tensor → Option (Tensor × ℚ × List Tensor)
  | [], out, _, ld, outputs => some (out, ld, outputs)
  | (layer, prior) :: rest, out, s, ld, outputs => do
    let (out2, outputs2) ← popLast outputs
    let q := prior.flow.backward (unsplit2d [out, out2]) s
    let p := runFwd MaCowStepM.backward layer.reverse q.1 s (ld + q.2)
    internalBwdLoop rest p.1 s p.2 outputs2

/-- `MaCowInternalBlock.backward` before its final
`assert len(outputs) == 0`: also returns the residual stack. -/
def MaCowInternalBlockM.backwardAux (b : MaCowInternalBlockM) (input : Tensor)
    (s : Option Tensor) : Option ((Tensor × ℚ) × List Tensor) := do
  let (out, outputs) ← internalBwdSplit b.layers input []
  let (out2, ld, outputs2) ← internalBwdLoop b.layers.reverse out s 0 outputs
  pure ((out2, ld), outputs2)

/-- `MaCowInternalBlock.backward`, including the final assertion that the
slice stack was fully consumed. -/
def MaCowInternalBlockM.backward (b : MaCowInternalBlockM) (input : Tensor)
    (s : Option Tensor) : Option (Tensor × ℚ) := do
  let (r, outputs) ← b.backwardAux input s
  if outputs.isEmpty then pure r else none

/-- The layer loop of `MaCowInternalBlock.init` (same shape as the forward
loop, through `init`). -/
def internalInitLoop (init_scale : ℚ) :
    List (List MaCowStepM × PriorF) → Tensor → Option Tensor → ℚ →
    List Tensor → Option (Tensor × ℚ × List Tensor)
  | [], out, _, ld, outputs => some (out, ld, outputs)
  | (layer, prior) :: rest, out, s, ld, outputs => do
    let p := runFwd (fun st x s2 => st.init x s2 init_scale) layer out s ld
    let q := prior.flow.init p.1 s init_scale
    let (out1, out2) ← split2d q.1 prior.z1_channels
    internalInitLoop init_scale rest out1 s (p.2 + q.2) (outputs ++ [out2])

/-- `MaCowInternalBlock.init`. -/
def MaCowInternalBlockM.init (b : MaCowInternalBlockM) (data : Tensor)
    (s : Option Tensor) (init_scale : ℚ) : Option (Tensor × ℚ) := do
  let (out, ld, outputs) ← internalInitLoop init_scale b.layers data s 0 []
  pure (unsplit2d ((outputs ++ [out]).reverse), ld)

/-- A block of the pyramid: `MaCowBottomBlock`, `MaCowInternalBlock` or
`MaCowTopBlock`.  The top block also records the `in_channels` it was
constructed with (`macow/flows/macow.py:354-356`). -/
inductive MaCowBlockM where
  | bottomB (steps : List MaCowStepM)
  | internalB (b : MaCowInternalBlockM)
  | topB (in_channels : ℕ) (steps : List MaCowStepM)

/-- `isinstance(block, MaCowInternalBlock) or isinstance(block, MaCowTopBlock)`. -/
def MaCowBlockM.isSqueezed : MaCowBlockM → Bool
  | .bottomB _ => false
  | _ => true

/-- `isinstance(block, MaCowInternalBlock)`. -/
def MaCowBlockM.isInternal : MaCowBlockM → Bool
  | .internalB _ => true
  | _ => false

/-- Number of internal blocks in a block list. -/
def countInternal (bs : List MaCowBlockM) : ℕ :=
  (bs.filter MaCowBlockM.isInternal).length

/-- Dispatch `block.forward(out, s)` (bottom and top blocks run their
steps in order from a zero accumulator). -/
def blockFwd : MaCowBlockM → Tensor → Option Tensor → Option (Tensor × ℚ)
  | .bottomB steps, x, s => some (runFwd MaCowStepM.forward steps x s 0)
  | .topB _ steps, x, s => some (runFwd MaCowStepM.forward steps x s 0)
  | .internalB b, x, s => b.forward x s

/-- Dispatch `block.backward(out, s)` (bottom and top blocks run their
steps reversed). -/
def blockBwd : MaCowBlockM → Tensor → Option Tensor → Option (Tensor × ℚ)
  | .bottomB steps, x, s => some (runFwd MaCowStepM.backward steps.reverse x s 0)
  | .topB _ steps, x, s => some (runFwd MaCowStepM.backward steps.reverse x s 0)
  | .internalB b, x, s => b.backward x s

/-- Dispatch `block.init(data, s, init_scale)`. -/
def blockInit (init_scale : ℚ) :
    MaCowBlockM → Tensor → Option Tensor → Option (Tensor × ℚ)
  | .bottomB steps, x, s =>
    some (runFwd (fun st x2 s2 => st.init x2 s2 init_scale) steps x s 0)
  | .topB _ steps, x, s =>
    some (runFwd (fun st x2 s2 => st.init x2 s2 init_scale) steps x s 0)
  | .internalB b, x, s => b.init x s init_scale

/-- The `MaCow` pyramid: its blocks and the `self.internals` /
`self.levels` counters set in `MaCow.__init__`. -/
structure MaCowM where
  blocks : List MaCowBlockM
  internals : ℕ
  levels : ℕ

/-- The block loop shared by `MaCow.forward` and `MaCow.init` (they differ
only in the per-block operation `bf`): squeeze the tensor and the
conditioning before every non-bottom block (`isinstance(block,
MaCowInternalBlock) or isinstance(block, MaCowTopBlock)`), run the block,
and split off the leaked slice after every internal block
(`isinstance(block, MaCowInternalBlock)`); the dispatch is written with
one arm per block kind. -/
def macowFwdLoop (bf : MaCowBlockM → Tensor → Option Tensor → Option (Tensor × ℚ)) :
    List MaCowBlockM → Tensor → Option Tensor → ℚ → List Tensor →
    Option (Tensor × Option Tensor × ℚ × List Tensor)
  | [], out, s, ld, outputs => some (out, s, ld, outputs)
  | .bottomB steps :: rest, out, s, ld, outputs => do
    let p ← bf (.bottomB steps) out s
    macowFwdLoop bf rest p.1 s (ld + p.2) outputs
  | .internalB ib :: rest, out, s, ld, outputs => do
    let s1 ← squeezeS s
    let out1 ← squeeze2d out
    let p ← bf (.internalB ib) out1 s1
    let oo ← split2d p.1 ib.z1_channels
    macowFwdLoop bf rest oo.1 s1 (ld + p.2) (outputs ++ [oo.2])
  | .topB c steps :: rest, out, s, ld, outputs => do
    let s1 ← squeezeS s
    let out1 ← squeeze2d out
    let p ← bf (.topB c steps) out1 s1
    macowFwdLoop bf rest p.1 s1 (ld + p.2) outputs

/-- The reconstruction loop after the block loop of `MaCow.forward` /
`MaCow.init`: `self.internals` times, pop a slice, recombine,
unsqueeze. -/
def unsqRounds : ℕ → Tensor → List Tensor → Option (Tensor × List Tensor)
  | 0, out, outputs => some (out, outputs)
  | k + 1, out, outputs => do
    let (out2, rest) ← popLast outputs
    let o ← unsqueeze2d (unsplit2d [out, out2])
    unsqRounds k o rest

/-- `MaCow.forward` before its final `assert len(outputs) == 0`: also
returns the residual stack. -/
def MaCowM.forwardAux (m : MaCowM) (input : Tensor) (s : Option Tensor) :
    Option ((Tensor × ℚ) × List Tensor) := do
  let (out, _, ld, outputs) ← macowFwdLoop blockFwd m.blocks input s 0 []
  let out1 ← unsqueeze2d out
  let (out2, outputs2) ← unsqRounds m.internals out1 outputs
  pure ((out2, ld), outputs2)

/-- `MaCow.forward`, including the final assertion. -/
def MaCowM.forward (m : MaCowM) (input : Tensor) (s : Option Tensor) :
    Option (Tensor × ℚ) := do
  let (r, outputs) ← m.forwardAux input s
  if outputs.isEmpty then pure r else none

/-- `MaCow.init` before its final assertion. -/
def MaCowM.initAux (m : MaCowM) (data : Tensor) (s : Option Tensor)
    (init_scale : ℚ) : Option ((Tensor × ℚ) × List Tensor) := do
  let (out, _, ld, outputs) ← macowFwdLoop (blockInit init_scale) m.blocks data s 0 []
  let out1 ← unsqueeze2d out
  let (out2, outputs2) ← unsqRounds m.internals out1 outputs
  pure ((out2, ld), outputs2)

/-- `MaCow.init`, including the final assertion. -/
def MaCowM.initPass (m : MaCowM) (data : Tensor) (s : Option Tensor)
    (init_scale : ℚ) : Option (Tensor × ℚ) := do
  let (r, outputs) ← m.initAux data s init_scale
  if outputs.isEmpty then pure r else none

/-- First loop of `MaCow.backward`: going down the blocks, squeeze the
conditioning once per internal block and slice the input into the leaked
pieces recorded at each internal level. -/
def macowBwdSplit :
    List MaCowBlockM → Tensor → Option Tensor → List Tensor →
    Option (Tensor × Option Tensor × List Tensor)
  | [], out, s, outputs => some (out, s, outputs)
  | .bottomB _ :: rest, out, s, outputs => macowBwdSplit rest out s outputs
  | .topB _ _ :: rest, out, s, outputs => macowBwdSplit rest out s outputs
  | .internalB ib :: rest, out, s, outputs => do
    let s1 ← squeezeS s
    let oo ← split2d out ib.z1_channels
    let o3 ← squeeze2d oo.1
    macowBwdSplit rest o3 s1 (outputs ++ [oo.2])

/-- Second loop of `MaCow.backward`: over the reversed blocks, pop and
recombine at internal blocks, run the block backward, and unsqueeze after
every non-bottom block. -/
def macowBwdLoop :
    List MaCowBlockM → Tensor → Option Tensor → ℚ → List Tensor →
    Option (Tensor × Option Tensor × ℚ × List Tensor)
  | [], out, s, ld, outputs => some (out, s, ld, outputs)
  | .bottomB steps :: rest, out, s, ld, outputs => do
    let p ← blockBwd (.bottomB steps) out s
    macowBwdLoop rest p.1 s (ld + p.2) outputs
  | .topB c steps :: rest, out, s, ld, outputs => do
    let p ← blockBwd (.topB c steps) out s
    let s3 ← unsqueezeS s
    let out3 ← unsqueeze2d p.1
    macowBwdLoop rest out3 s3 (ld + p.2) outputs
  | .internalB ib :: rest, out, s, ld, outputs => do
    let pr ← popLast outputs
    let p ← blockBwd (.internalB ib) (unsplit2d [out, pr.1]) s
    let s3 ← unsqueezeS s
    let out3 ← unsqueeze2d p.1
    macowBwdLoop rest out3 s3 (ld + p.2) pr.2

/-- `MaCow.backward` before its final `assert len(outputs) == 0`: squeeze
the input and the conditioning once, run both loops, and also return the
residual stack. -/
def MaCowM.backwardAux (m : MaCowM) (input : Tensor) (s : Option Tensor) :
    Option ((Tensor × ℚ) × List Tensor) := do
  let s0 ← squeezeS s
  let out0 ← squeeze2d input
  let (out1, s1, outputs) ← macowBwdSplit m.blocks out0 s0 []
  let (out2, _, ld, outputs2) ← macowBwdLoop m.blocks.reverse out1 s1 0 outputs
  pure ((out2, ld), outputs2)

/-- `MaCow.backward`, including the final assertion. -/
def MaCowM.backward (m : MaCowM) (input : Tensor) (s : Option Tensor) :
    Option (Tensor × ℚ) := do
  let (r, outputs) ← m.backwardAux input s
  if outputs.isEmpty then pure r else none

/-!
### Construction (`MaCowInternalBlock.__init__`, `MaCow.__init__`)

The construction model keeps the channel-count arithmetic and the list
shapes of `__init__` and abstracts the per-step learned parameters into
generator functions (quantified universally in the theorems): `genStep c n`
stands for `[MaCowStep(c, ...) for _ in range(n)]`, `genLayer c n` for the
same list inside an internal block, and `genPrior c f` for the flow part of
`Prior(c, ..., factor=f)`.  Failed `assert`s are modelled by `none`. -/

/-- One entry of the `num_steps` configuration list: an integer for bottom
and top levels, a list of integers (one per layer) for internal levels. -/
inductive NumCfg where
  | single (n : ℕ)
  | multi (ns : List ℕ)

/-- The layer loop of `MaCowInternalBlock.__init__`: `channel_step` is
fixed up front; each layer consumes a prior built from the current
`in_channels` and `factor`, then `in_channels -= channel_step`,
`assert in_channels == prior.z1_channels`, `factor -= 1`. -/
def mkInternalLayers (genLayer : ℕ → ℕ → List MaCowStepM)
    (genPrior : ℕ → ℕ → CFlow) (channel_step : ℕ) :
    List ℕ → ℕ → ℕ → Option (List (List MaCowStepM × PriorF) × ℕ)
  | [], in_channels, _ => some ([], in_channels)
  | num_step :: rest, in_channels, factor => do
    let layer := genLayer in_channels num_step
    let prior := mkPrior genPrior in_channels factor
    let in2 := in_channels - channel_step
    if in2 = prior.z1_channels then do
      let (ls, z1) ← mkInternalLayers genLayer genPrior channel_step rest in2 (factor - 1)
      pure ((layer, prior) :: ls, z1)
    else none

/-- `MaCowInternalBlock.__init__(num_steps, in_channels, ..., factor)`. -/
def mkInternalBlock (genLayer : ℕ → ℕ → List MaCowStepM)
    (genPrior : ℕ → ℕ → CFlow) (num_steps : List ℕ) (in_channels factor : ℕ) :
    Option MaCowInternalBlockM :=
  if num_steps.length < factor then do
    let (ls, z1) ← mkInternalLayers genLayer genPrior (in_channels / factor)
      num_steps in_channels factor
    pure ⟨ls, z1⟩
  else none

/-- The level loop of `MaCow.__init__` over the `num_steps` entries zipped
with the padded `factors` list: level 0 is a bottom block when `bottom`
is set, the last level is the top block, every other level is an internal
block; non-bottom levels quadruple `in_channels` on entry and internal
levels reduce it to their `z1_channels`. -/
def mkBlocks (genStep : ℕ → ℕ → List MaCowStepM)
    (genLayer : ℕ → ℕ → List MaCowStepM) (genPrior : ℕ → ℕ → CFlow) :
    List (NumCfg × ℕ) → ℕ → Bool → Option (List MaCowBlockM)
  | [], _, _ => none
  | [(cfg, _)], in_channels, _ =>
    match cfg with
    | .single n => some [.topB (in_channels * 4) (genStep (in_channels * 4) n)]
    | .multi _ => none
  | (cfg, factor) :: rest, in_channels, atBottom =>
    if atBottom then
      match cfg with
      | .single n =>
        (mkBlocks genStep genLayer genPrior rest in_channels false).map
          (fun bs => .bottomB (genStep in_channels n) :: bs)
      | .multi _ => none
    else
      match cfg with
      | .multi ns => do
        let ib ← mkInternalBlock genLayer genPrior ns (in_channels * 4) factor
        let bs ← mkBlocks genStep genLayer genPrior rest ib.z1_channels false
        pure (.internalB ib :: bs)
      | .single _ => none

/-- `MaCow.__init__(levels, num_steps, in_channels, ..., factors, ...,
bottom)`: pad the factors (`[0] + factors + [0] if bottom else
factors + [0]`), check the level-count assertions, build the blocks, and
record `self.internals` and `self.levels`. -/
def mkMaCow (genStep : ℕ → ℕ → List MaCowStepM)
    (genLayer : ℕ → ℕ → List MaCowStepM) (genPrior : ℕ → ℕ → CFlow)
    (levels : ℕ) (num_steps : List NumCfg) (in_channels : ℕ)
    (factors : List ℕ) (bottom : Bool) : Option MaCowM := do
  if 1 < levels then
    let fs := if bottom then 0 :: factors ++ [0] else factors ++ [0]
    if num_steps.length = levels ∧ fs.length = levels then do
      let bs ← mkBlocks genStep genLayer genPrior (num_steps.zip fs) in_channels bottom
      pure ⟨bs, if bottom then levels - 2 else levels - 1, levels⟩
    else none
  else none

/-- The `in_channels` recorded by the top block of a pyramid (`0` when the
block list is malformed). -/
def MaCowM.topChannels (m : MaCowM) : ℕ :=
  match m.blocks.getLast? with
  | some (.topB c _) => c
  | _ => 0

/-- The channel count fed to the top block, computed directly from the
per-internal-level configuration `(num_layers, factor)`: each internal
level quadruples the running count and removes
`num_layers * (4c / factor)` channels, and the top level quadruples once
more. -/
def macowTopChannels (in_channels : ℕ) (internalCfg : List (ℕ × ℕ)) : ℕ :=
  (internalCfg.foldl
    (fun c nf => c * 4 - nf.1 * (c * 4 / nf.2)) in_channels) * 4

/-- The number of layers an internal level gets from its `num_steps`
entry. -/
def numLayersOf : NumCfg → ℕ
  | .single n => n
  | .multi ns => ns.length

/-- The `(num_layers, factor)` pairs of the internal levels of a non-bottom
configuration tail (every entry except the final top level). -/
def cfgPairs : List (NumCfg × ℕ) → List (ℕ × ℕ)
  | [] => []
  | [_] => []
  | (cfg0, f) :: rest => (numLayersOf cfg0, f) :: cfgPairs rest

/-- The internal-level `(num_layers, factor)` configuration of a
`MaCow.__init__` call: the zipped level list without the bottom entry (if
any). -/
def mkMaCowCfg (num_steps : List NumCfg) (factors : List ℕ) (bottom : Bool) :
    List (ℕ × ℕ) :=
  let fs := if bottom then 0 :: factors ++ [0] else factors ++ [0]
  let pairs := num_steps.zip fs
  cfgPairs (if bottom then pairs.drop 1 else pairs)

/-- A well-shaped non-bottom tail of a pyramid: internal blocks followed
by a single top block.  `MaCow.__init__` produces exactly this shape. -/
inductive GoodTail : List MaCowBlockM → Prop where
  | top (c : ℕ) (steps : List MaCowStepM) : GoodTail [.topB c steps]
  | internal (ib : MaCowInternalBlockM) (rest : List MaCowBlockM)
      (h : GoodTail rest) : GoodTail (.internalB ib :: rest)

/-- A well-shaped pyramid block list: an optional bottom block followed by
a good tail. -/
inductive GoodBlocks : List MaCowBlockM → Prop where
  | nobottom (bs : List MaCowBlockM) (h : GoodTail bs) : GoodBlocks bs
  | bottom (steps : List MaCowStepM) (bs : List MaCowBlockM)
      (h : GoodTail bs) : GoodBlocks (.bottomB steps :: bs)

/-!
### Structurally recursive reformulations

The block loops of `macow.py` thread an explicit slice stack.  For the
proofs it is convenient to also have the equivalent structurally recursive
forms, in which the stack is the recursion stack; the equivalence with the
loop forms is proved below. -/

/-- Recursive form of `MaCowInternalBlock.forward`. -/
def chainIntFwd : List (List MaCowStepM × PriorF) → Tensor → Option Tensor →
    Option (Tensor × ℚ)
  | [], out, _ => some (out, 0)
  | (layer, prior) :: rest, out, s => do
    let p := runFwd MaCowStepM.forward layer out s 0
    let q := prior.flow.forward p.1 s
    let (out1, out2) ← split2d q.1 prior.z1_channels
    let (core, ld) ← chainIntFwd rest out1 s
    pure (core ++ out2, p.2 + q.2 + ld)

/-- Recursive form of `MaCowInternalBlock.backward`. -/
def chainIntBwd : List (List MaCowStepM × PriorF) → Tensor → Option Tensor →
    Option (Tensor × ℚ)
  | [], out, _ => some (out, 0)
  | (layer, prior) :: rest, out, s => do
    let (pre, out2) ← split2d out prior.z1_channels
    let (mid, ldr) ← chainIntBwd rest pre s
    let q := prior.flow.backward (unsplit2d [mid, out2]) s
    let p := runFwd MaCowStepM.backward layer.reverse q.1 s 0
    pure (p.1, ldr + q.2 + p.2)

/-- Recursive form of `MaCow.forward` on a well-shaped block list. -/
def chainFwd : List MaCowBlockM → Tensor → Option Tensor → Option (Tensor × ℚ)
  | [.topB _ steps], x, s => do
    let s1 ← squeezeS s
    let x1 ← squeeze2d x
    let p := runFwd MaCowStepM.forward steps x1 s1 0
    let y ← unsqueeze2d p.1
    pure (y, p.2)
  | .bottomB steps :: rest, x, s =>
    let p := runFwd MaCowStepM.forward steps x s 0
    (chainFwd rest p.1 s).map (fun q => (q.1, p.2 + q.2))
  | .internalB ib :: rest, x, s => do
    let s1 ← squeezeS s
    let x1 ← squeeze2d x
    let (b1, b2) ← ib.forward x1 s1
    let (o1, o2) ← split2d b1 ib.z1_channels
    let (core, ld) ← chainFwd rest o1 s1
    let y ← unsqueeze2d (unsplit2d [core, o2])
    pure (y, b2 + ld)
  | _, _, _ => none

/-- Recursive form of `MaCow.backward` on a well-shaped block list. -/
def chainBwd : List MaCowBlockM → Tensor → Option Tensor → Option (Tensor × ℚ)
  | [.topB _ steps], y, s => do
    let s1 ← squeezeS s
    let y1 ← squeeze2d y
    let p := runFwd MaCowStepM.backward steps.reverse y1 s1 0
    let x ← unsqueeze2d p.1
    pure (x, p.2)
  | .bottomB steps :: rest, y, s => do
    let (mid, ldr) ← chainBwd rest y s
    let p := runFwd MaCowStepM.backward steps.reverse mid s 0
    pure (p.1, ldr + p.2)
  | .internalB ib :: rest, y, s => do
    let s1 ← squeezeS s
    let y1 ← squeeze2d y
    let (pre, o2) ← split2d y1 ib.z1_channels
    let (mid, ldr) ← chainBwd rest pre s1
    let (b1, b2) ← ib.backward (unsplit2d [mid, o2]) s1
    let x ← unsqueeze2d b1
    pure (x, ldr + b2)
  | _, _, _ => none

/-!
### `macow/flows/nice.py`: the NICE coupling flow

The `NICEBlock` convolution net (built from `Conv2dWeightNorm`, which is
not among the sources) is abstracted into the function fields `net` /
`net_init`, and the transcendental scalar functions `torch.sigmoid` /
`torch.log` into the fields `sigmoid` / `qlog`; the claims about `NICE`
do not depend on their values. -/

/-- The additive constant `1e-12` of `NICE.backward`
(`z2.div(scale + 1e-12)`). -/
def eps1e12 : ℚ := 1 / 1000000000000

/-- `NICE`: the retained channel count `z1_channels = in_channels -
in_channels // factor`, the `scale` flag, and the abstracted net. -/
structure NICEM where
  z1_channels : ℕ
  scale : Bool
  net : Tensor → Option Tensor → Tensor
  net_init : Tensor → Option Tensor → ℚ → Tensor
  sigmoid : ℚ → ℚ
  qlog : ℚ → ℚ

/-- `NICE.__init__(in_channels, ..., factor)`:
`out_channels = in_channels // factor; self.z1_channels = in_channels -
out_channels`. -/
def mkNICE (net : Tensor → Option Tensor → Tensor)
    (net_init : Tensor → Option Tensor → ℚ → Tensor) (sigmoid qlog : ℚ → ℚ)
    (scale : Bool) (in_channels factor : ℕ) : NICEM :=
  ⟨in_channels - in_channels / factor, scale, net, net_init, sigmoid, qlog⟩

/-- `NICE.calc_mu_and_scale`: run the net on `z1`; with `scale` set, chunk
the output into two channel halves (`chunk(2, dim=1)`, first chunk of size
`ceil(n/2)`) and map `sigmoid(log_scale + 2)` over the second half. -/
def NICEM.calc_mu_and_scale (m : NICEM) (z1 : Tensor) (s : Option Tensor) :
    Tensor × Option Tensor :=
  let mu0 := m.net z1 s
  if m.scale then
    let k := (mu0.length + 1) / 2
    (mu0.take k, some ((mu0.drop k).map (Plane.pmap (fun v => m.sigmoid (v + 2)))))
  else (mu0, none)

/-- `NICE.init_net`: same post-processing over `net.init`. -/
def NICEM.init_net (m : NICEM) (z1 : Tensor) (s : Option Tensor)
    (init_scale : ℚ) : Tensor × Option Tensor :=
  let mu0 := m.net_init z1 s init_scale
  if m.scale then
    let k := (mu0.length + 1) / 2
    (mu0.take k, some ((mu0.drop k).map (Plane.pmap (fun v => m.sigmoid (v + 2)))))
  else (mu0, none)

/-- `NICE.forward`: `z2 = z2 * scale` (with `logdet = sum(log(scale))`)
when scaling, then `z2 = z2 + mu`; `z1` passes through. -/
def NICEM.forward (m : NICEM) (input : Tensor) (s : Option Tensor) :
    Tensor × ℚ :=
  let z1 := input.take m.z1_channels
  let z2 := input.drop m.z1_channels
  let ms := m.calc_mu_and_scale z1 s
  let zl : Tensor × ℚ :=
    match ms.2 with
    | some scale => (Tensor.tzip (· * ·) z2 scale, Tensor.tsumF m.qlog scale)
    | none => (z2, 0)
  let z2b := Tensor.tzip (· + ·) zl.1 ms.1
  (z1 ++ z2b, zl.2)

/-- `NICE.backward`: `z2 = z2 - mu`, then `z2 = z2 / (scale + 1e-12)`
(with `logdet = -sum(log(scale))`) when scaling; `z1` passes through. -/
def NICEM.backward (m : NICEM) (input : Tensor) (s : Option Tensor) :
    Tensor × ℚ :=
  let z1 := input.take m.z1_channels
  let z2 := input.drop m.z1_channels
  let ms := m.calc_mu_and_scale z1 s
  let z2a := Tensor.tzip (· - ·) z2 ms.1
  let zl : Tensor × ℚ :=
    match ms.2 with
    | some scale =>
      (Tensor.tzip (· / ·) z2a (Tensor.tmap (· + eps1e12) scale),
        Tensor.tsumF m.qlog scale * (-1))
    | none => (z2a, 0)
  (z1 ++ zl.1, zl.2)

/-- `NICE.init`: as `forward`, through `init_net`. -/
def NICEM.init (m : NICEM) (data : Tensor) (s : Option Tensor)
    (init_scale : ℚ) : Tensor × ℚ :=
  let z1 := data.take m.z1_channels
  let z2 := data.drop m.z1_channels
  let ms := m.init_net z1 s init_scale
  let zl : Tensor × ℚ :=
    match ms.2 with
    | some scale => (Tensor.tzip (· * ·) z2 scale, Tensor.tsumF m.qlog scale)
    | none => (z2, 0)
  let z2b := Tensor.tzip (· + ·) zl.1 ms.1
  (z1 ++ z2b, zl.2)

/-- The backward transformation as the spec sentence for C9 words it:
division of `z2 - mu` by the scale with NO epsilon added to the
divisor.  (Definition written from the spec claim, for comparison with
`NICEM.backward`, which is translated from the source.) -/
def NICEM.backwardNoEps (m : NICEM) (input : Tensor) (s : Option Tensor) :
    Tensor × ℚ :=
  let z1 := input.take m.z1_channels
  let z2 := input.drop m.z1_channels
  let ms := m.calc_mu_and_scale z1 s
  let z2a := Tensor.tzip (· - ·) z2 ms.1
  let zl : Tensor × ℚ :=
    match ms.2 with
    | some scale => (Tensor.tzip (· / ·) z2a scale, Tensor.tsumF m.qlog scale * (-1))
    | none => (z2a, 0)
  (z1 ++ zl.1, zl.2)

/-- The backward transformation with the epsilon clamp, written as one
formula (the amended C9 statement): `z2 = (z2 - mu) / (scale + 1e-12)`. -/
def NICEM.backwardWithEps (m : NICEM) (input : Tensor) (s : Option Tensor) :
    Tensor × ℚ :=
  let z1 := input.take m.z1_channels
  let z2 := input.drop m.z1_channels
  let ms := m.calc_mu_and_scale z1 s
  let zl : Tensor × ℚ :=
    match ms.2 with
    | some scale =>
      (Tensor.tzip (· / ·) (Tensor.tzip (· - ·) z2 ms.1)
          (Tensor.tmap (· + eps1e12) scale),
        Tensor.tsumF m.qlog scale * (-1))
    | none => (Tensor.tzip (· - ·) z2 ms.1, 0)
  (z1 ++ zl.1, zl.2)

/-!
### `macow/models/flow_gen.py` -/

/-- `FlowGenModel`: holds one flow (asserted at construction to be in
inverse mode; the assertion is a hypothesis of the theorems that need
it). -/
structure FlowGenM where
  flow : FlowM

/-- `FlowGenModel.encode(x) = self.flow.bwdpass(x)`. -/
def FlowGenM.encode (m : FlowGenM) (x : Tensor) : Option (Tensor × ℚ) :=
  m.flow.bwdpass x none false 1

/-- `FlowGenModel.decode(z) = self.flow.fwdpass(z)`. -/
def FlowGenM.decode (m : FlowGenM) (z : Tensor) : Option (Tensor × ℚ) :=
  m.flow.fwdpass z none false 1

/-- `FlowGenModel.log_probability(x)`: encode, flatten, and return
`(z*z).sum + log(2*pi) * numel, times -0.5, plus logdet`.  `log2pi`
abstracts the float constant `math.log(math.pi * 2.)`. -/
def FlowGenM.log_probability (log2pi : ℚ) (m : FlowGenM) (x : Tensor) :
    Option ℚ := do
  let (z, logdet) ← m.encode x
  let zf := Tensor.flatten z
  let log_probs := (zf.map (fun v => v * v)).sum + log2pi * zf.length
  pure (log_probs * (-(1 / 2)) + logdet)

/-- Group a flat batch list into `batch` rows of `n` entries
(`view(batch, n, ...)`). -/
def chunkRows {α : Type} : ℕ → ℕ → List α → List (List α)
  | 0, _, _ => []
  | b + 1, n, l => l.take n :: chunkRows b n (l.drop n)

/-- `VDeQuantFlowGenModel.dequantize(x, nsamples)`, as a function of the
drawn noise `epsilon` (the `torch.randn` draw is the caller's input here;
its distribution is outside the embedding).  `dq e xc` is the per-sample
action of `self.dequant_flow.fwdpass(epsilon, x)`; per the spec the flow
acts independently on every sample of a batch, so the batched pass is the
zip of `dq` over the paired lists.  Broadcasting
`x.unsqueeze(1) + zeros(batch, nsamples, ...)` followed by
`view(epsilon.size())` repeats every sample `nsamples` times in place. -/
def vDequantize (dq : Tensor → Tensor → Tensor × ℚ) (log2pi : ℚ)
    (epsilon : List Tensor) (x : List Tensor) (nsamples : ℕ) :
    List (List Tensor) × List (List ℚ) :=
  let batch := x.length
  let xb := if 1 < nsamples then (x.map (List.replicate nsamples)).join else x
  let pairs := List.zipWith dq epsilon xb
  let u := pairs.map (fun p => p.1)
  let logdet := pairs.map (fun p => p.2)
  let log_posteriors := List.zipWith
    (fun e ld =>
      (((Tensor.flatten e).map (fun v => v * v)).sum
          + log2pi * (Tensor.flatten e).length) * (-(1 / 2)) - ld)
    epsilon logdet
  (chunkRows batch nsamples u, chunkRows batch nsamples log_posteriors)

/-!
### Concrete instances (used to evaluate the theorems on closed inputs) -/

/-- A concrete `2 x 2` channel. -/
def plane1 : Plane :=
  Plane.node (Plane.leaf 1) (Plane.leaf 2) (Plane.leaf 3) (Plane.leaf 4)

/-- A concrete one-channel `4 x 4` tensor. -/
def sampleX : Tensor := [Plane.node plane1 plane1 plane1 plane1]

/-- A `MaCowUnit` made of identity component flows. -/
def idUnit : MaCowUnitM := ⟨idAFlow, idAFlow, idCFlow, idCFlow, idCFlow, idCFlow⟩

/-- A `MaCowStep` made of identity component flows. -/
def idStep : MaCowStepM := mkMaCowStep idUnit idUnit idCFlow

/-- A concrete three-level pyramid (bottom, one internal with a single
empty layer, top), with identity component flows: the shape produced by
`mkMaCow` on `levels=3, num_steps=[0,[0],0], in_channels=1, factors=[2],
bottom=true`. -/
def pyr3 : MaCowM :=
  ⟨[.bottomB [], .internalB ⟨[([], ⟨idCFlow, 2⟩)], 2⟩, .topB 8 []], 1, 3⟩

/-- A concrete `NICE` instance: 2 input channels split 1/1, `scale` on,
net output `[0, 0]` (so `mu = 0` and, with the sigmoid abstracted as the
constant `1/2`, `scale = 1/2` on the single transformed channel). -/
def nice0 : NICEM :=
  ⟨1, true, fun _ _ => [Plane.leaf 0, Plane.leaf 0],
    fun _ _ _ => [Plane.leaf 0, Plane.leaf 0], fun _ => 1 / 2, fun _ => 0⟩

/-- A concrete two-channel input for `nice0`. -/
def niceX : Tensor := [Plane.leaf 5, Plane.leaf 1]

/-- A concrete non-inverse flow for the adapter theorems. -/
def flow0 : FlowM :=
  ⟨false, fun x _ => (x, 3), fun x _ => (x, -3), fun x _ _ => (x, 3)⟩

/-- A concrete inverse-mode flow for the adapter and model theorems. -/
def flow1 : FlowM :=
  ⟨true, fun x _ => (x, 5), fun x _ => (x, -5), fun x _ _ => (x, 5)⟩

/-- A concrete generative model around `flow1`. -/
def fgen0 : FlowGenM := ⟨flow1⟩

/-- A concrete per-sample dequantization action (adds the conditioning
image to the noise, log-determinant `2`). -/
def dq0 : Tensor → Tensor → Tensor × ℚ :=
  fun e xr => (Tensor.tzip (· + ·) e xr, 2)

/-- A concrete noise batch of `batch * nsamples = 2 * 2` samples. -/
def eps4 : List Tensor :=
  [[Plane.leaf 1], [Plane.leaf 2], [Plane.leaf 3], [Plane.leaf 4]]

/-- A concrete two-image batch. -/
def xs2 : List Tensor := [[Plane.leaf 10], [Plane.leaf 20]]

end Macow

namespace Macow

/-- Squeeze followed by unsqueeze is the identity. -/
theorem unsqueeze2d_squeeze2d {t u : Tensor} (h : squeeze2d t = some u) :
    unsqueeze2d u = some t := by
  induction t generalizing u with
  | nil =>
    simp only [squeeze2d, Option.some.injEq] at h
    subst h
    rfl
  | cons p rest ih =>
    rcases p with v | ⟨a, b, c, d⟩
    · simp [squeeze2d, squeezeChan] at h
    · cases hr : squeeze2d rest with
      | none => rw [squeeze2d] at h; simp [squeezeChan, hr] at h
      | some r =>
        rw [squeeze2d] at h
        simp [squeezeChan, hr] at h
        subst h
        have := ih hr
        simp [unsqueeze2d, this]

/-- Unsqueeze followed by squeeze is the identity. -/
theorem squeeze2d_unsqueeze2d {t u : Tensor} (h : unsqueeze2d t = some u) :
    squeeze2d u = some t := by
  induction t using unsqueeze2d.induct generalizing u with
  | case1 =>
    simp only [unsqueeze2d, Option.some.injEq] at h
    subst h
    rfl
  | case2 a b c d rest ih =>
    simp only [unsqueeze2d, Option.map_eq_some'] at h
    obtain ⟨r, hr, hu⟩ := h
    subst hu
    have := ih hr
    simp [squeeze2d, squeezeChan, this]
  | case3 t h1 h2 =>
    cases t with
    | nil => exact absurd rfl h1
    | cons a rest =>
      cases rest with
      | nil => simp [unsqueeze2d] at h
      | cons b rest2 =>
        cases rest2 with
        | nil => simp [unsqueeze2d] at h
        | cons c rest3 =>
          cases rest3 with
          | nil => simp [unsqueeze2d] at h
          | cons d rest4 => exact absurd rfl (h2 a b c d rest4)

/-- Squeezing and unsqueezing an optional conditioning tensor round
trips. -/
theorem unsqueezeS_squeezeS {s s0 : Option Tensor} (h : squeezeS s = some s0) :
    unsqueezeS s0 = some s := by
  cases s with
  | none =>
    simp only [squeezeS, Option.some.injEq] at h
    subst h
    rfl
  | some t =>
    simp only [squeezeS, Option.map_eq_some'] at h
    obtain ⟨u, hu, hs⟩ := h
    subst hs
    simp [unsqueezeS, unsqueeze2d_squeeze2d hu]

theorem popLast_concat {α : Type} (l : List α) (a : α) :
    popLast (l ++ [a]) = some (a, l) := by
  simp [popLast, List.getLast?_concat, List.dropLast_concat]

theorem split2d_append (a b : Tensor) : split2d (a ++ b) a.length = some (a, b) := by
  simp [split2d, List.take_left, List.drop_left]

theorem split2d_some {t o1 o2 : Tensor} {n : ℕ}
    (h : split2d t n = some (o1, o2)) :
    o1 ++ o2 = t ∧ o1.length = n := by
  by_cases hn : n ≤ t.length
  · simp only [split2d, if_pos hn, Option.some.injEq, Prod.mk.injEq] at h
    obtain ⟨h1, h2⟩ := h
    subst h1 h2
    exact ⟨List.take_append_drop n t, List.length_take_of_le hn⟩
  · simp [split2d, if_neg hn] at h

theorem runFwd_nil {α : Type} (f : α → Tensor → Option Tensor → Tensor × ℚ)
    (x : Tensor) (s : Option Tensor) (ld0 : ℚ) :
    runFwd f [] x s ld0 = (x, ld0) := rfl

theorem runFwd_cons {α : Type} (f : α → Tensor → Option Tensor → Tensor × ℚ)
    (a : α) (xs : List α) (x : Tensor) (s : Option Tensor) (ld0 : ℚ) :
    runFwd f (a :: xs) x s ld0 =
      runFwd f xs (f a x s).1 s (ld0 + (f a x s).2) := rfl

/-- The starting log-determinant of the accumulation loop adds up. -/
theorem runFwd_ld0 {α : Type} (f : α → Tensor → Option Tensor → Tensor × ℚ)
    (xs : List α) (x : Tensor) (s : Option Tensor) (ld0 : ℚ) :
    runFwd f xs x s ld0 = ((runFwd f xs x s 0).1, ld0 + (runFwd f xs x s 0).2) := by
  induction xs generalizing x ld0 with
  | nil => simp [runFwd]
  | cons a xs ih =>
    rw [runFwd_cons, runFwd_cons, ih _ (ld0 + (f a x s).2), ih _ (0 + (f a x s).2)]
    simp only [Prod.mk.injEq, true_and]
    ring

theorem runFwd_append {α : Type} (f : α → Tensor → Option Tensor → Tensor × ℚ)
    (xs ys : List α) (x : Tensor) (s : Option Tensor) (ld0 : ℚ) :
    runFwd f (xs ++ ys) x s ld0 =
      runFwd f ys (runFwd f xs x s ld0).1 s (runFwd f xs x s ld0).2 := by
  simp [runFwd, List.foldl_append]

/-- Inversion of the accumulation loop: if `g` undoes `f` elementwise with
negated log-determinant, then running `g` over the reversed list undoes
running `f`, with negated total log-determinant. -/
theorem runFwd_inv {α : Type} {f g : α → Tensor → Option Tensor → Tensor × ℚ}
    (hinv : ∀ a x s, g a (f a x s).1 s = (x, -(f a x s).2))
    (xs : List α) (x : Tensor) (s : Option Tensor) :
    runFwd g xs.reverse (runFwd f xs x s 0).1 s 0 = (x, -(runFwd f xs x s 0).2) := by
  induction xs generalizing x with
  | nil => simp [runFwd]
  | cons a xs ih =>
    rw [runFwd_cons, runFwd_ld0 f xs]
    rw [List.reverse_cons, runFwd_append]
    rw [ih ((f a x s).1)]
    rw [runFwd_cons, runFwd_nil, hinv]
    simp only [Prod.mk.injEq, true_and]
    ring

theorem runFwd_len {α : Type} {f : α → Tensor → Option Tensor → Tensor × ℚ}
    (hlen : ∀ a x s, ((f a x s).1).length = x.length)
    (xs : List α) (x : Tensor) (s : Option Tensor) (ld0 : ℚ) :
    ((runFwd f xs x s ld0).1).length = x.length := by
  induction xs generalizing x ld0 with
  | nil => rfl
  | cons a xs ih =>
    rw [runFwd_cons]
    rw [ih]
    exact hlen a x s

/-- `MaCowUnit.backward` inverts `MaCowUnit.forward` exactly, with negated
log-determinant. -/
theorem unit_bwd_fwd (u : MaCowUnitM) (x : Tensor) (s : Option Tensor) :
    u.backward (u.forward x s).1 s = (x, -(u.forward x s).2) := by
  simp only [MaCowUnitM.forward, MaCowUnitM.backward, u.conv4.bwd_fwd,
    u.conv3.bwd_fwd, u.actnorm2.bwd_fwd, u.conv2.bwd_fwd, u.conv1.bwd_fwd,
    u.actnorm1.bwd_fwd, Prod.mk.injEq, true_and]
  ring

theorem unit_fwd_len (u : MaCowUnitM) (x : Tensor) (s : Option Tensor) :
    ((u.forward x s).1).length = x.length := by
  simp only [MaCowUnitM.forward]
  rw [u.conv4.fwd_len, u.conv3.fwd_len, u.actnorm2.fwd_len, u.conv2.fwd_len,
    u.conv1.fwd_len, u.actnorm1.fwd_len]

/-- `MaCowStep.backward` inverts `MaCowStep.forward` exactly, with negated
log-determinant. -/
theorem step_bwd_fwd (st : MaCowStepM) (x : Tensor) (s : Option Tensor) :
    st.backward (st.forward x s).1 s = (x, -(st.forward x s).2) := by
  simp only [MaCowStepM.forward, MaCowStepM.backward, st.glow_step.bwd_fwd]
  rw [runFwd_ld0 _ st.units.reverse]
  rw [runFwd_inv (fun u => unit_bwd_fwd u) st.units x s]
  simp only [Prod.mk.injEq, true_and]
  ring

theorem step_fwd_len (st : MaCowStepM) (x : Tensor) (s : Option Tensor) :
    ((st.forward x s).1).length = x.length := by
  simp only [MaCowStepM.forward]
  rw [st.glow_step.fwd_len]
  exact runFwd_len (fun u => unit_fwd_len u) st.units x s 0

/-- The loop of `MaCowInternalBlock.forward` with its final
reconstruction computes the structurally recursive `chainIntFwd`,
for any starting log-determinant and stack. -/
theorem intLoop_eq_chain (ls : List (List MaCowStepM × PriorF)) :
    ∀ (x : Tensor) (s : Option Tensor) (ld : ℚ) (st0 : List Tensor),
    (internalFwdLoop ls x s ld st0).map
        (fun r => (unsplit2d ((r.2.2 ++ [r.1]).reverse), r.2.1))
      = (chainIntFwd ls x s).map
        (fun q => (unsplit2d ((st0 ++ [q.1]).reverse), ld + q.2)) := by
  induction ls with
  | nil =>
    intro x s ld st0
    simp [internalFwdLoop, chainIntFwd]
  | cons lp rest ih =>
    obtain ⟨layer, prior⟩ := lp
    intro x s ld st0
    rw [internalFwdLoop, chainIntFwd]
    rw [runFwd_ld0 _ layer x s ld]
    cases hsp : split2d ((prior.flow.forward (runFwd MaCowStepM.forward layer x s 0).1 s).1)
        prior.z1_channels with
    | none => simp [hsp]
    | some oo =>
      obtain ⟨o1, o2⟩ := oo
      simp only [hsp, Option.bind_eq_bind, Option.some_bind]
      rw [ih o1 s _ (st0 ++ [o2])]
      cases hch : chainIntFwd rest o1 s with
      | none => simp [hch]
      | some q =>
        obtain ⟨core, l2⟩ := q
        simp only [hch, Option.bind_eq_bind, Option.some_bind, Option.map_some',
          Option.pure_def, Option.some.injEq, Prod.mk.injEq]
        constructor
        · simp [unsplit2d, List.reverse_append]
        · ring

/-- `MaCowInternalBlock.forward` is the structurally recursive form. -/
theorem intFwd_eq_chain (b : MaCowInternalBlockM) (x : Tensor) (s : Option Tensor) :
    b.forward x s = chainIntFwd b.layers x s := by
  have h := intLoop_eq_chain b.layers x s 0 []
  rw [MaCowInternalBlockM.forward]
  cases hl : internalFwdLoop b.layers x s 0 [] with
  | none =>
    rw [hl] at h
    cases hch : chainIntFwd b.layers x s with
    | none => simp
    | some q => rw [hch] at h; simp at h
  | some r =>
    obtain ⟨out, ld, outputs⟩ := r
    rw [hl] at h
    cases hch : chainIntFwd b.layers x s with
    | none => rw [hch] at h; simp at h
    | some q =>
      obtain ⟨core, l2⟩ := q
      rw [hch] at h
      simp only [Option.map_some', Option.some.injEq, Prod.mk.injEq] at h
      obtain ⟨h1, h2⟩ := h
      simp only [Option.bind_eq_bind, Option.some_bind, Option.pure_def,
        Option.some.injEq]
      rw [h1, h2]
      simp [unsplit2d]

/-- Appending layer lists composes the second backward loop of
`MaCowInternalBlock`. -/
theorem internalBwdLoop_append (l1 l2 : List (List MaCowStepM × PriorF)) :
    ∀ (out : Tensor) (s : Option Tensor) (ld : ℚ) (st : List Tensor),
    internalBwdLoop (l1 ++ l2) out s ld st = (do
      let (o, l, st2) ← internalBwdLoop l1 out s ld st
      internalBwdLoop l2 o s l st2) := by
  induction l1 with
  | nil =>
    intro out s ld st
    simp [internalBwdLoop]
  | cons lp rest ih =>
    obtain ⟨layer, prior⟩ := lp
    intro out s ld st
    rw [List.cons_append, internalBwdLoop, internalBwdLoop]
    cases hp : popLast st with
    | none => simp [hp]
    | some pr =>
      obtain ⟨o2, st2⟩ := pr
      simp only [hp, Option.bind_eq_bind, Option.some_bind]
      exact ih _ s _ st2

/-- The two loops of `MaCowInternalBlock.backward` compute the
structurally recursive `chainIntBwd`, for any starting log-determinant and
stack. -/
theorem intBwd_eq_chain (ls : List (List MaCowStepM × PriorF)) :
    ∀ (out : Tensor) (s : Option Tensor) (ld : ℚ) (st0 : List Tensor),
    (do
      let (o, st) ← internalBwdSplit ls out st0
      internalBwdLoop ls.reverse o s ld st)
      = (chainIntBwd ls out s).map (fun q => (q.1, ld + q.2, st0)) := by
  induction ls with
  | nil =>
    intro out s ld st0
    simp [internalBwdSplit, internalBwdLoop, chainIntBwd]
  | cons lp rest ih =>
    obtain ⟨layer, prior⟩ := lp
    intro out s ld st0
    rw [internalBwdSplit, chainIntBwd, List.reverse_cons]
    cases hsp : split2d out prior.z1_channels with
    | none => simp [hsp]
    | some oo =>
      obtain ⟨o1, o2⟩ := oo
      simp only [hsp, Option.bind_eq_bind, Option.some_bind]
      cases hs2 : internalBwdSplit rest o1 (st0 ++ [o2]) with
      | none =>
        have ih2 := ih o1 s ld (st0 ++ [o2])
        rw [hs2] at ih2
        simp only [Option.bind_eq_bind, Option.none_bind] at ih2
        simp only [Option.none_bind]
        cases hch : chainIntBwd rest o1 s with
        | none => simp [hch]
        | some q => rw [hch] at ih2; simp at ih2
      | some r =>
        obtain ⟨o, st⟩ := r
        have ih2 := ih o1 s ld (st0 ++ [o2])
        rw [hs2] at ih2
        simp only [Option.bind_eq_bind, Option.some_bind] at ih2
        simp only [Option.some_bind]
        rw [internalBwdLoop_append, ih2]
        cases hch : chainIntBwd rest o1 s with
        | none => simp [hch]
        | some q =>
          obtain ⟨mid, ldr⟩ := q
          simp only [hch, Option.map_some', Option.bind_eq_bind, Option.some_bind]
          rw [internalBwdLoop, popLast_concat]
          simp only [Option.bind_eq_bind, Option.some_bind, internalBwdLoop]
          rw [runFwd_ld0 _ layer.reverse]
          simp only [Option.map_some', Option.pure_def, Option.some.injEq,
            Prod.mk.injEq, true_and, and_true]
          ring

/-- Channel count is preserved by the recursive internal forward pass. -/
theorem chainIntFwd_len (ls : List (List MaCowStepM × PriorF)) :
    ∀ {x : Tensor} {s : Option Tensor} {y : Tensor} {ld : ℚ},
    chainIntFwd ls x s = some (y, ld) → y.length = x.length := by
  induction ls with
  | nil =>
    intro x s y ld h
    simp only [chainIntFwd, Option.some.injEq, Prod.mk.injEq] at h
    rw [← h.1]
  | cons lp rest ih =>
    obtain ⟨layer, prior⟩ := lp
    intro x s y ld h
    rw [chainIntFwd] at h
    simp only [Option.bind_eq_bind, Option.bind_eq_some, Option.pure_def,
      Option.some.injEq, Prod.mk.injEq] at h
    obtain ⟨⟨o1, o2⟩, hsp, ⟨core, l2⟩, hch, hy, hld⟩ := h
    dsimp only at hsp hch hy hld
    have hlen := ih hch
    obtain ⟨happ, hlen1⟩ := split2d_some hsp
    have hq : o1.length + o2.length =
        ((prior.flow.forward (runFwd MaCowStepM.forward layer x s 0).1 s).1).length := by
      rw [← happ]; simp
    have hpl := prior.flow.fwd_len (runFwd MaCowStepM.forward layer x s 0).1 s
    have hr := @runFwd_len _ MaCowStepM.forward
      (fun st => step_fwd_len st) layer x s 0
    rw [← hy]
    simp only [List.length_append]
    omega

/-- The recursive internal backward pass inverts the recursive internal
forward pass exactly, with negated log-determinant. -/
theorem chainIntBwd_chainIntFwd (ls : List (List MaCowStepM × PriorF)) :
    ∀ {x : Tensor} {s : Option Tensor} {y : Tensor} {ld : ℚ},
    chainIntFwd ls x s = some (y, ld) → chainIntBwd ls y s = some (x, -ld) := by
  induction ls with
  | nil =>
    intro x s y ld h
    simp only [chainIntFwd, Option.some.injEq, Prod.mk.injEq] at h
    obtain ⟨h1, h2⟩ := h
    rw [chainIntBwd, ← h1, ← h2]
    simp
  | cons lp rest ih =>
    obtain ⟨layer, prior⟩ := lp
    intro x s y ld h
    rw [chainIntFwd] at h
    simp only [Option.bind_eq_bind, Option.bind_eq_some, Option.pure_def,
      Option.some.injEq, Prod.mk.injEq] at h
    obtain ⟨⟨o1, o2⟩, hsp, ⟨core, l2⟩, hch, hy, hld⟩ := h
    dsimp only at hsp hch hy hld
    obtain ⟨happ, hlen1⟩ := split2d_some hsp
    have hcore : core.length = prior.z1_channels := by
      rw [chainIntFwd_len rest hch, hlen1]
    rw [chainIntBwd, ← hy]
    rw [← hcore, split2d_append core o2]
    simp only [Option.bind_eq_bind, Option.some_bind]
    rw [ih hch]
    simp only [Option.bind_eq_bind, Option.some_bind]
    have hun : unsplit2d [o1, o2] =
        (prior.flow.forward (runFwd MaCowStepM.forward layer x s 0).1 s).1 := by
      simp [unsplit2d, happ]
    rw [hun, prior.flow.bwd_fwd]
    rw [runFwd_inv (fun st => step_bwd_fwd st) layer x s]
    simp only [Option.pure_def, Option.some.injEq, Prod.mk.injEq, true_and]
    rw [← hld]
    ring

/-- `MaCowInternalBlock.backward` inverts `MaCowInternalBlock.forward`:
whenever the forward pass succeeds, the backward pass on its output
succeeds (its stack assertion passes) and returns the original input with
negated log-determinant. -/
theorem internalBlock_bwd_fwd (b : MaCowInternalBlockM) {x y : Tensor}
    {s : Option Tensor} {ld : ℚ} (h : b.forward x s = some (y, ld)) :
    b.backward y s = some (x, -ld) := by
  rw [intFwd_eq_chain] at h
  have hb := chainIntBwd_chainIntFwd b.layers h
  have hc := intBwd_eq_chain b.layers y s 0 []
  rw [hb] at hc
  simp only [Option.map_some'] at hc
  cases hs : internalBwdSplit b.layers y [] with
  | none => rw [hs] at hc; simp at hc
  | some r =>
    obtain ⟨o, st⟩ := r
    rw [hs] at hc
    simp only [Option.bind_eq_bind, Option.some_bind] at hc
    rw [MaCowInternalBlockM.backward, MaCowInternalBlockM.backwardAux, hs]
    simp only [Option.bind_eq_bind, Option.some_bind, hc]
    simp

theorem popLast_some {α : Type} {l l2 : List α} {a : α}
    (h : popLast l = some (a, l2)) : l = l2 ++ [a] := by
  rw [popLast] at h
  cases hg : l.getLast? with
  | none => rw [hg] at h; simp at h
  | some b =>
    rw [hg] at h
    simp only [Option.some.injEq, Prod.mk.injEq] at h
    obtain ⟨h1, h2⟩ := h
    subst h1
    obtain ⟨ys, hy⟩ := List.getLast?_eq_some_iff.1 hg
    subst hy
    rw [← h2, List.dropLast_concat]

theorem squeeze2d_len : ∀ {t u : Tensor}, squeeze2d t = some u →
    u.length = 4 * t.length := by
  intro t
  induction t with
  | nil =>
    intro u h
    simp only [squeeze2d, Option.some.injEq] at h
    subst h
    rfl
  | cons p rest ih =>
    intro u h
    rcases p with v | ⟨a, b, c, d⟩
    · simp [squeeze2d, squeezeChan] at h
    · cases hr : squeeze2d rest with
      | none => rw [squeeze2d] at h; simp [squeezeChan, hr] at h
      | some r =>
        rw [squeeze2d] at h
        simp [squeezeChan, hr] at h
        subst h
        have := ih hr
        simp only [List.length_append, List.length_cons]
        omega

theorem countInternal_nil : countInternal [] = 0 := rfl

theorem countInternal_internal (ib : MaCowInternalBlockM) (bs : List MaCowBlockM) :
    countInternal (.internalB ib :: bs) = countInternal bs + 1 := by
  simp [countInternal, List.filter, MaCowBlockM.isInternal]

theorem countInternal_bottom (steps : List MaCowStepM) (bs : List MaCowBlockM) :
    countInternal (.bottomB steps :: bs) = countInternal bs := by
  simp [countInternal, List.filter, MaCowBlockM.isInternal]

theorem countInternal_top (c : ℕ) (steps : List MaCowStepM) (bs : List MaCowBlockM) :
    countInternal (.topB c steps :: bs) = countInternal bs := by
  simp [countInternal, List.filter, MaCowBlockM.isInternal]

/-- Every successful block loop pushes exactly one slice per internal
block: the stack grows by `countInternal`. -/
theorem macowFwdLoop_stackLen
    (bf : MaCowBlockM → Tensor → Option Tensor → Option (Tensor × ℚ)) :
    ∀ (bs : List MaCowBlockM) (x : Tensor) (s : Option Tensor) (ld : ℚ)
      (st : List Tensor) (r : Tensor × Option Tensor × ℚ × List Tensor),
    macowFwdLoop bf bs x s ld st = some r →
    r.2.2.2.length = st.length + countInternal bs := by
  intro bs
  induction bs with
  | nil =>
    intro x s ld st r h
    simp only [macowFwdLoop, Option.some.injEq] at h
    subst h
    rfl
  | cons b rest ih =>
    intro x s ld st r h
    cases b with
    | bottomB steps =>
      rw [macowFwdLoop] at h
      simp only [Option.bind_eq_bind, Option.bind_eq_some] at h
      obtain ⟨p, hp, h⟩ := h
      rw [countInternal_bottom]
      exact ih _ s _ st r h
    | internalB ib =>
      rw [macowFwdLoop] at h
      simp only [Option.bind_eq_bind, Option.bind_eq_some] at h
      obtain ⟨s1, h1, out1, h2, p, h3, oo, h4, h⟩ := h
      have := ih _ s1 _ (st ++ [oo.2]) r h
      rw [countInternal_internal]
      simp only [List.length_append, List.length_cons, List.length_nil] at this
      omega
    | topB c steps =>
      rw [macowFwdLoop] at h
      simp only [Option.bind_eq_bind, Option.bind_eq_some] at h
      obtain ⟨s1, h1, out1, h2, p, h3, h⟩ := h
      rw [countInternal_top]
      exact ih _ s1 _ st r h

/-- Every successful reconstruction loop pops exactly one slice per
round. -/
theorem unsqRounds_len : ∀ (k : ℕ) (o : Tensor) (st : List Tensor)
    (r : Tensor × List Tensor), unsqRounds k o st = some r →
    st.length = r.2.length + k := by
  intro k
  induction k with
  | zero =>
    intro o st r h
    simp only [unsqRounds, Option.some.injEq] at h
    subst h
    rfl
  | succ n ih =>
    intro o st r h
    rw [unsqRounds] at h
    simp only [Option.bind_eq_bind, Option.bind_eq_some] at h
    obtain ⟨⟨a, st2⟩, hp, h⟩ := h
    obtain ⟨u, hu, h⟩ := h
    have := ih u st2 r h
    have hl := popLast_some hp
    subst hl
    simp only [List.length_append, List.length_cons, List.length_nil]
    omega

/-- The first backward loop pushes exactly one slice per internal
block. -/
theorem macowBwdSplit_stackLen :
    ∀ (bs : List MaCowBlockM) (x : Tensor) (s : Option Tensor)
      (st : List Tensor) (r : Tensor × Option Tensor × List Tensor),
    macowBwdSplit bs x s st = some r →
    r.2.2.length = st.length + countInternal bs := by
  intro bs
  induction bs with
  | nil =>
    intro x s st r h
    simp only [macowBwdSplit, Option.some.injEq] at h
    subst h
    rfl
  | cons b rest ih =>
    intro x s st r h
    cases b with
    | bottomB steps =>
      rw [macowBwdSplit] at h
      rw [countInternal_bottom]
      exact ih _ s st r h
    | topB c steps =>
      rw [macowBwdSplit] at h
      rw [countInternal_top]
      exact ih _ s st r h
    | internalB ib =>
      rw [macowBwdSplit] at h
      simp only [Option.bind_eq_bind, Option.bind_eq_some] at h
      obtain ⟨s1, h1, oo, h2, o3, h3, h⟩ := h
      have := ih _ s1 (st ++ [oo.2]) r h
      rw [countInternal_internal]
      simp only [List.length_append, List.length_cons, List.length_nil] at this
      omega

/-- The second backward loop pops exactly one slice per internal block. -/
theorem macowBwdLoop_stackLen :
    ∀ (bs : List MaCowBlockM) (x : Tensor) (s : Option Tensor) (ld : ℚ)
      (st : List Tensor) (r : Tensor × Option Tensor × ℚ × List Tensor),
    macowBwdLoop bs x s ld st = some r →
    st.length = r.2.2.2.length + countInternal bs := by
  intro bs
  induction bs with
  | nil =>
    intro x s ld st r h
    simp only [macowBwdLoop, Option.some.injEq] at h
    subst h
    rfl
  | cons b rest ih =>
    intro x s ld st r h
    cases b with
    | bottomB steps =>
      rw [macowBwdLoop] at h
      simp only [Option.bind_eq_bind, Option.bind_eq_some] at h
      obtain ⟨p, hp, h⟩ := h
      rw [countInternal_bottom]
      exact ih _ s _ st r h
    | topB c steps =>
      rw [macowBwdLoop] at h
      simp only [Option.bind_eq_bind, Option.bind_eq_some] at h
      obtain ⟨p, hp, s3, h3, o3, h4, h⟩ := h
      rw [countInternal_top]
      exact ih _ s3 _ st r h
    | internalB ib =>
      rw [macowBwdLoop] at h
      simp only [Option.bind_eq_bind, Option.bind_eq_some] at h
      obtain ⟨pr, hpr, p, hp, s3, h3, o3, h4, h⟩ := h
      have := ih _ s3 _ pr.2 r h
      obtain ⟨a, st2⟩ := pr
      have hl := popLast_some hpr
      subst hl
      rw [countInternal_internal]
      simp only [List.length_append, List.length_cons, List.length_nil] at this ⊢
      omega

theorem unsqueeze2d_len : ∀ {t u : Tensor}, unsqueeze2d t = some u →
    t.length = 4 * u.length := by
  intro t
  induction t using unsqueeze2d.induct with
  | case1 =>
    intro u h
    simp only [unsqueeze2d, Option.some.injEq] at h
    subst h
    rfl
  | case2 a b c d rest ih =>
    intro u h
    simp only [unsqueeze2d, Option.map_eq_some'] at h
    obtain ⟨r, hr, hu⟩ := h
    subst hu
    have := ih hr
    simp only [List.length_cons]
    omega
  | case3 t h1 h2 =>
    intro u h
    cases t with
    | nil => exact absurd rfl h1
    | cons a rest =>
      cases rest with
      | nil => simp [unsqueeze2d] at h
      | cons b rest2 =>
        cases rest2 with
        | nil => simp [unsqueeze2d] at h
        | cons c rest3 =>
          cases rest3 with
          | nil => simp [unsqueeze2d] at h
          | cons d rest4 => exact absurd rfl (h2 a b c d rest4)

/-- Peeling the last round off the reconstruction loop: `k + 1` rounds are
`k` rounds followed by one pop-recombine-unsqueeze round. -/
theorem unsqRounds_succ_last : ∀ (k : ℕ) (o : Tensor) (st : List Tensor),
    unsqRounds (k + 1) o st = (do
      let z ← unsqRounds k o st
      let pr ← popLast z.2
      let y ← unsqueeze2d (unsplit2d [z.1, pr.1])
      pure (y, pr.2)) := by
  intro k
  induction k with
  | zero =>
    intro o st
    rw [unsqRounds]
    cases hp : popLast st with
    | none => simp [hp, unsqRounds]
    | some pr =>
      obtain ⟨a, st2⟩ := pr
      simp only [hp, Option.bind_eq_bind, Option.some_bind, unsqRounds]
      cases hu : unsqueeze2d (unsplit2d [o, a]) with
      | none => simp [hu]
      | some y => simp [hu, unsqRounds]
  | succ n ih =>
    intro o st
    rw [unsqRounds]
    cases hp : popLast st with
    | none =>
      rw [unsqRounds, hp]
      simp
    | some pr =>
      obtain ⟨a, st2⟩ := pr
      conv_rhs => rw [unsqRounds]
      simp only [hp, Option.bind_eq_bind, Option.some_bind]
      cases hu : unsqueeze2d (unsplit2d [o, a]) with
      | none => simp [hu]
      | some y =>
        simp only [hu, Option.some_bind]
        exact ih y st2

/-- Appending block lists composes the second backward loop of
`MaCow.backward`. -/
theorem macowBwdLoop_append (l1 l2 : List MaCowBlockM) :
    ∀ (out : Tensor) (s : Option Tensor) (ld : ℚ) (st : List Tensor),
    macowBwdLoop (l1 ++ l2) out s ld st = (do
      let w ← macowBwdLoop l1 out s ld st
      macowBwdLoop l2 w.1 w.2.1 w.2.2.1 w.2.2.2) := by
  induction l1 with
  | nil =>
    intro out s ld st
    simp [macowBwdLoop]
  | cons b rest ih =>
    intro out s ld st
    cases b with
    | bottomB steps =>
      rw [List.cons_append, macowBwdLoop, macowBwdLoop]
      cases hb : blockBwd (.bottomB steps) out s with
      | none => simp [hb]
      | some p =>
        simp only [hb, Option.bind_eq_bind, Option.some_bind]
        exact ih _ s _ st
    | topB c steps =>
      rw [List.cons_append, macowBwdLoop, macowBwdLoop]
      cases hb : blockBwd (.topB c steps) out s with
      | none => simp [hb]
      | some p =>
        simp only [hb, Option.bind_eq_bind, Option.some_bind]
        cases hs3 : unsqueezeS s with
        | none => simp [hs3]
        | some s3 =>
          simp only [hs3, Option.some_bind]
          cases ho3 : unsqueeze2d p.1 with
          | none => simp [ho3]
          | some o3 =>
            simp only [ho3, Option.some_bind]
            exact ih _ s3 _ st
    | internalB ib =>
      rw [List.cons_append, macowBwdLoop, macowBwdLoop]
      cases hp : popLast st with
      | none => simp [hp]
      | some pr =>
        simp only [hp, Option.bind_eq_bind, Option.some_bind]
        cases hb : blockBwd (.internalB ib) (unsplit2d [out, pr.1]) s with
        | none => simp [hb]
        | some p =>
          simp only [hb, Option.some_bind]
          cases hs3 : unsqueezeS s with
          | none => simp [hs3]
          | some s3 =>
            simp only [hs3, Option.some_bind]
            cases ho3 : unsqueeze2d p.1 with
            | none => simp [ho3]
            | some o3 =>
              simp only [ho3, Option.some_bind]
              exact ih _ s3 _ pr.2

/-- Channel count is preserved end to end by the recursive pyramid forward
pass on a well-shaped tail. -/
theorem chainFwd_len {bs : List MaCowBlockM} (hg : GoodTail bs) :
    ∀ {x : Tensor} {s : Option Tensor} {y : Tensor} {ld : ℚ},
    chainFwd bs x s = some (y, ld) → y.length = x.length := by
  induction hg with
  | top c steps =>
    intro x s y ld h
    rw [chainFwd] at h
    simp only [Option.bind_eq_bind, Option.bind_eq_some, Option.pure_def,
      Option.some.injEq, Prod.mk.injEq] at h
    obtain ⟨s1, hs1, x1, hx1, y2, hy2, hy, hld⟩ := h
    have h1 := squeeze2d_len hx1
    have h2 := unsqueeze2d_len hy2
    have h3 := @runFwd_len _ MaCowStepM.forward
      (fun st => step_fwd_len st) steps x1 s1 0
    rw [← hy]
    omega
  | internal ib rest hrest ih =>
    intro x s y ld h
    rw [chainFwd] at h
    simp only [Option.bind_eq_bind, Option.bind_eq_some, Option.pure_def,
      Option.some.injEq, Prod.mk.injEq] at h
    obtain ⟨s1, hs1, x1, hx1, ⟨b1, b2⟩, hb, ⟨o1, o2⟩, hoo, ⟨core, ldc⟩, hch, y2,
      hy2, hy, hld⟩ := h
    dsimp only at hb hoo hch hy2 hy hld
    have h1 := squeeze2d_len hx1
    have h2 := unsqueeze2d_len hy2
    have h3 := ih hch
    rw [intFwd_eq_chain] at hb
    have h4 := chainIntFwd_len ib.layers hb
    obtain ⟨happ, hlen1⟩ := split2d_some hoo
    have h5 : o1.length + o2.length = b1.length := by
      rw [← happ]; simp
    have h6 : (unsplit2d [core, o2]).length = core.length + o2.length := by
      simp [unsplit2d]
    rw [← hy]
    omega

/-- A successful recursive backward pass implies the input tensor and the
conditioning can be squeezed (extracted from the head of the well-shaped
tail). -/
theorem chainBwd_entry {bs : List MaCowBlockM} (hg : GoodTail bs)
    {y : Tensor} {s : Option Tensor} {r : Tensor × ℚ}
    (h : chainBwd bs y s = some r) :
    ∃ s0 y0, squeezeS s = some s0 ∧ squeeze2d y = some y0 := by
  cases hg with
  | top c steps =>
    rw [chainBwd] at h
    simp only [Option.bind_eq_bind, Option.bind_eq_some] at h
    obtain ⟨s1, hs1, y1, hy1, h⟩ := h
    exact ⟨s1, y1, hs1, hy1⟩
  | internal ib rest hrest =>
    rw [chainBwd] at h
    simp only [Option.bind_eq_bind, Option.bind_eq_some] at h
    obtain ⟨s1, hs1, y1, hy1, h⟩ := h
    exact ⟨s1, y1, hs1, hy1⟩

/-- The recursive pyramid backward pass inverts the recursive pyramid
forward pass on a well-shaped tail, with negated log-determinant. -/
theorem chainBwd_chainFwd {bs : List MaCowBlockM} (hg : GoodTail bs) :
    ∀ {x : Tensor} {s : Option Tensor} {y : Tensor} {ld : ℚ},
    chainFwd bs x s = some (y, ld) → chainBwd bs y s = some (x, -ld) := by
  induction hg with
  | top c steps =>
    intro x s y ld h
    rw [chainFwd] at h
    simp only [Option.bind_eq_bind, Option.bind_eq_some, Option.pure_def,
      Option.some.injEq, Prod.mk.injEq] at h
    obtain ⟨s1, hs1, x1, hx1, y2, hy2, hy, hld⟩ := h
    subst hy hld
    rw [chainBwd]
    have hsqy := squeeze2d_unsqueeze2d hy2
    simp only [hs1, hsqy, Option.bind_eq_bind, Option.some_bind]
    rw [runFwd_inv (fun st => step_bwd_fwd st) steps x1 s1]
    rw [unsqueeze2d_squeeze2d hx1]
    simp
  | internal ib rest hrest ih =>
    intro x s y ld h
    rw [chainFwd] at h
    simp only [Option.bind_eq_bind, Option.bind_eq_some, Option.pure_def,
      Option.some.injEq, Prod.mk.injEq] at h
    obtain ⟨s1, hs1, x1, hx1, ⟨b1, b2⟩, hb, ⟨o1, o2⟩, hoo, ⟨core, ldc⟩, hch, y2,
      hy2, hy, hld⟩ := h
    dsimp only at hb hoo hch hy2 hy hld
    subst hy hld
    rw [chainBwd]
    have hsqy := squeeze2d_unsqueeze2d hy2
    simp only [hs1, hsqy, Option.bind_eq_bind, Option.some_bind]
    have hcore : core.length = ib.z1_channels := by
      rw [chainFwd_len hrest hch, (split2d_some hoo).2]
    have hsplit : split2d (unsplit2d [core, o2]) ib.z1_channels = some (core, o2) := by
      rw [← hcore]
      have hco : unsplit2d [core, o2] = core ++ o2 := by simp [unsplit2d]
      rw [hco]
      exact split2d_append core o2
    rw [hsplit]
    simp only [Option.some_bind]
    rw [ih hch]
    simp only [Option.some_bind]
    have hb1 : unsplit2d [o1, o2] = b1 := by
      simp [unsplit2d, (split2d_some hoo).1]
    rw [hb1]
    rw [internalBlock_bwd_fwd ib hb]
    simp only [Option.some_bind]
    rw [unsqueeze2d_squeeze2d hx1]
    simp only [Option.some_bind, Option.pure_def, Option.some.injEq,
      Prod.mk.injEq, true_and]
    ring

/-- On a well-shaped tail, the block loop of `MaCow.forward` followed by
the reconstruction loop computes the structurally recursive `chainFwd`. -/
theorem macowFwdTail_eq_chain {bs : List MaCowBlockM} (hg : GoodTail bs) :
    ∀ (x : Tensor) (s : Option Tensor) (ld0 : ℚ) (st0 : List Tensor),
    (do
      let r ← macowFwdLoop blockFwd bs x s ld0 st0
      let o1 ← unsqueeze2d r.1
      let z ← unsqRounds (countInternal bs) o1 r.2.2.2
      pure (z.1, r.2.2.1, z.2))
      = (chainFwd bs x s).map (fun q => (q.1, ld0 + q.2, st0)) := by
  induction hg with
  | top c steps =>
    intro x s ld0 st0
    rw [chainFwd, macowFwdLoop]
    cases hs1 : squeezeS s with
    | none => simp [hs1]
    | some s1 =>
      simp only [hs1, Option.bind_eq_bind, Option.some_bind]
      cases hx1 : squeeze2d x with
      | none => simp [hx1]
      | some x1 =>
        simp only [hx1, Option.some_bind, blockFwd, macowFwdLoop,
          countInternal_top, countInternal_nil]
        cases hy : unsqueeze2d (runFwd MaCowStepM.forward steps x1 s1 0).1 with
        | none => simp [hy]
        | some y => simp [hy, unsqRounds]
  | internal ib rest hrest ih =>
    intro x s ld0 st0
    rw [chainFwd, macowFwdLoop]
    cases hs1 : squeezeS s with
    | none => simp [hs1]
    | some s1 =>
      simp only [hs1, Option.bind_eq_bind, Option.some_bind]
      cases hx1 : squeeze2d x with
      | none => simp [hx1]
      | some x1 =>
        simp only [hx1, Option.some_bind, blockFwd]
        cases hb : ib.forward x1 s1 with
        | none => simp [hb]
        | some p =>
          obtain ⟨b1, b2⟩ := p
          simp only [hb, Option.some_bind]
          cases hoo : split2d b1 ib.z1_channels with
          | none => simp [hoo]
          | some oo =>
            obtain ⟨o1, o2⟩ := oo
            simp only [hoo, Option.some_bind, countInternal_internal,
              unsqRounds_succ_last]
            have ihe := ih o1 s1 (ld0 + b2) (st0 ++ [o2])
            cases hloop : macowFwdLoop blockFwd rest o1 s1 (ld0 + b2) (st0 ++ [o2]) with
            | none =>
              rw [hloop] at ihe
              simp only [Option.bind_eq_bind, Option.none_bind] at ihe
              simp only [Option.bind_eq_bind, Option.none_bind]
              cases hch : chainFwd rest o1 s1 with
              | none => simp [hch]
              | some q => rw [hch] at ihe; simp at ihe
            | some r =>
              obtain ⟨rout, rs, rld, rst⟩ := r
              rw [hloop] at ihe
              simp only [Option.bind_eq_bind, Option.some_bind] at ihe
              simp only [Option.bind_eq_bind, Option.some_bind]
              cases hunsq : unsqueeze2d rout with
              | none =>
                rw [hunsq] at ihe
                simp only [Option.bind_eq_bind, Option.none_bind] at ihe
                simp only [Option.bind_eq_bind, Option.none_bind]
                cases hch : chainFwd rest o1 s1 with
                | none => simp [hch]
                | some q => rw [hch] at ihe; simp at ihe
              | some o1b =>
                rw [hunsq] at ihe
                simp only [Option.bind_eq_bind, Option.some_bind] at ihe
                simp only [Option.bind_eq_bind, Option.some_bind]
                cases hrounds : unsqRounds (countInternal rest) o1b rst with
                | none =>
                  rw [hrounds] at ihe
                  simp only [Option.bind_eq_bind, Option.none_bind] at ihe
                  simp only [Option.bind_eq_bind, Option.none_bind]
                  cases hch : chainFwd rest o1 s1 with
                  | none => simp [hch]
                  | some q => rw [hch] at ihe; simp at ihe
                | some z =>
                  obtain ⟨zy, zst⟩ := z
                  rw [hrounds] at ihe
                  simp only [Option.bind_eq_bind, Option.some_bind, Option.pure_def] at ihe
                  simp only [Option.bind_eq_bind, Option.some_bind]
                  cases hch : chainFwd rest o1 s1 with
                  | none => rw [hch] at ihe; simp at ihe
                  | some q =>
                    obtain ⟨core, ldc⟩ := q
                    rw [hch] at ihe
                    simp only [Option.map_some', Option.some.injEq,
                      Prod.mk.injEq] at ihe
                    obtain ⟨he1, he2, he3⟩ := ihe
                    subst he1 he2 he3
                    simp only [hch, Option.some_bind]
                    rw [popLast_concat]
                    simp only [Option.some_bind]
                    cases hfin : unsqueeze2d (unsplit2d [zy, o2]) with
                    | none => simp [hfin]
                    | some yfin =>
                      simp only [hfin, Option.bind_eq_bind, Option.some_bind,
                        Option.pure_def, Option.map_some', Option.some.injEq,
                        Prod.mk.injEq, true_and, and_true]
                      ring

/-- On a well-shaped tail, the two loops of `MaCow.backward` compute the
recursive `chainBwd` whenever it succeeds: starting from the squeezed
input and conditioning, they return its value, restore the conditioning,
and leave the slice stack as they found it. -/
theorem macowBwd_realize {bs : List MaCowBlockM} (hg : GoodTail bs) :
    ∀ {y : Tensor} {s : Option Tensor} {x : Tensor} {ld : ℚ}
      {y0 : Tensor} {s0 : Option Tensor} (ld0 : ℚ) (st0 : List Tensor),
    squeeze2d y = some y0 → squeezeS s = some s0 →
    chainBwd bs y s = some (x, ld) →
    (do
      let w ← macowBwdSplit bs y0 s0 st0
      macowBwdLoop bs.reverse w.1 w.2.1 ld0 w.2.2)
      = some (x, s, ld0 + ld, st0) := by
  induction hg with
  | top c steps =>
    intro y s x ld y0 s0 ld0 st0 hy0 hs0 h
    rw [chainBwd] at h
    simp only [Option.bind_eq_bind, Option.bind_eq_some, Option.pure_def,
      Option.some.injEq, Prod.mk.injEq] at h
    obtain ⟨s1, hs1, y1, hy1, x2, hx2, hx, hld⟩ := h
    rw [hs0] at hs1
    rw [hy0] at hy1
    injection hs1 with hs1e
    injection hy1 with hy1e
    subst hs1e hy1e hx hld
    rw [macowBwdSplit, macowBwdSplit]
    simp only [List.reverse_cons, List.reverse_nil, List.nil_append,
      Option.bind_eq_bind, Option.some_bind]
    rw [macowBwdLoop, blockBwd]
    simp only [Option.bind_eq_bind, Option.some_bind]
    rw [unsqueezeS_squeezeS hs0]
    simp only [Option.some_bind]
    rw [hx2]
    simp only [Option.some_bind, macowBwdLoop]
  | internal ib rest hrest ih =>
    intro y s x ld y0 s0 ld0 st0 hy0 hs0 h
    rw [chainBwd] at h
    simp only [Option.bind_eq_bind, Option.bind_eq_some, Option.pure_def,
      Option.some.injEq, Prod.mk.injEq] at h
    obtain ⟨s1, hs1, y1, hy1, ⟨pre, o2⟩, hsp, ⟨mid, ldr⟩, hch, ⟨b1, b2⟩, hbw,
      x2, hx2, hx, hld⟩ := h
    dsimp only at hsp hch hbw hx2 hx hld
    rw [hs0] at hs1
    rw [hy0] at hy1
    injection hs1 with hs1e
    injection hy1 with hy1e
    subst hs1e hy1e hx hld
    obtain ⟨s00, pre0, hs00, hpre0⟩ := chainBwd_entry hrest hch
    rw [macowBwdSplit]
    simp only [hs00, Option.bind_eq_bind, Option.some_bind, hsp, hpre0]
    simp only [List.reverse_cons]
    have ihh := ih ld0 (st0 ++ [o2]) hpre0 hs00 hch
    cases hw : macowBwdSplit rest pre0 s00 (st0 ++ [o2]) with
    | none => rw [hw] at ihh; simp at ihh
    | some w =>
      rw [hw] at ihh
      simp only [Option.bind_eq_bind, Option.some_bind] at ihh
      simp only [hw, Option.some_bind]
      rw [macowBwdLoop_append, ihh]
      simp only [Option.bind_eq_bind, Option.some_bind]
      rw [macowBwdLoop, popLast_concat]
      simp only [Option.bind_eq_bind, Option.some_bind, blockBwd]
      rw [hbw]
      simp only [Option.some_bind]
      rw [unsqueezeS_squeezeS hs0]
      simp only [Option.some_bind]
      rw [hx2]
      simp only [Option.some_bind, macowBwdLoop, Option.some.injEq,
        Prod.mk.injEq, true_and, and_true]
      ring

/-- Evaluating the forward composition on a successful run extracts the
recursive `chainFwd` value. -/
theorem fwdAux_chain {bs : List MaCowBlockM} (hgt : GoodTail bs)
    {x : Tensor} {s : Option Tensor} {ld0 : ℚ} {rout : Tensor}
    {rs : Option Tensor} {rld : ℚ} {rst : List Tensor} {o1b y : Tensor}
    (hloop : macowFwdLoop blockFwd bs x s ld0 [] = some (rout, rs, rld, rst))
    (hunsq : unsqueeze2d rout = some o1b)
    (hrounds : unsqRounds (countInternal bs) o1b rst = some (y, [])) :
    ∃ ldc, chainFwd bs x s = some (y, ldc) ∧ rld = ld0 + ldc := by
  have hcomp := macowFwdTail_eq_chain hgt x s ld0 []
  rw [hloop] at hcomp
  simp only [Option.bind_eq_bind, Option.some_bind, hunsq, hrounds] at hcomp
  cases hch : chainFwd bs x s with
  | none => rw [hch] at hcomp; simp at hcomp
  | some q =>
    obtain ⟨cy, cld⟩ := q
    rw [hch] at hcomp
    simp only [Option.map_some', Option.pure_def, Option.some.injEq,
      Prod.mk.injEq] at hcomp
    obtain ⟨h1, h2, h3⟩ := hcomp
    subst h1
    exact ⟨cld, rfl, h2⟩

/-- `MaCow.backward` inverts `MaCow.forward` on every well-shaped pyramid:
whenever the forward pass succeeds, the backward pass on its output
succeeds (both stack assertions pass) and returns the original input with
negated log-determinant. -/
theorem macow_bwd_fwd_good {m : MaCowM} (hg : GoodBlocks m.blocks)
    {x y : Tensor} {s : Option Tensor} {ld : ℚ}
    (h : m.forward x s = some (y, ld)) : m.backward y s = some (x, -ld) := by
  obtain ⟨mblocks, mint, mlev⟩ := m
  simp only at hg h ⊢
  rw [MaCowM.forward] at h
  cases haux : MaCowM.forwardAux ⟨mblocks, mint, mlev⟩ x s with
  | none => rw [haux] at h; simp at h
  | some rr =>
    obtain ⟨r0, st⟩ := rr
    rw [haux] at h
    simp only [Option.bind_eq_bind, Option.some_bind] at h
    cases st with
    | cons a st2 => simp [List.isEmpty] at h
    | nil =>
      simp only [List.isEmpty_nil, if_true, Option.pure_def, Option.some.injEq] at h
      subst h
      rw [MaCowM.forwardAux] at haux
      cases hloop : macowFwdLoop blockFwd mblocks x s 0 [] with
      | none => rw [hloop] at haux; simp at haux
      | some r =>
        obtain ⟨rout, rs, rld, rst⟩ := r
        rw [hloop] at haux
        simp only [Option.bind_eq_bind, Option.some_bind] at haux
        cases hunsq : unsqueeze2d rout with
        | none => rw [hunsq] at haux; simp at haux
        | some o1b =>
          rw [hunsq] at haux
          simp only [Option.some_bind] at haux
          cases hrounds : unsqRounds mint o1b rst with
          | none => rw [hrounds] at haux; simp at haux
          | some z =>
            obtain ⟨zy, zst⟩ := z
            rw [hrounds] at haux
            simp only [Option.some_bind, Option.pure_def, Option.some.injEq,
              Prod.mk.injEq] at haux
            obtain ⟨⟨hzy, hrld⟩, hzst⟩ := haux
            subst hzy hrld hzst
            have hlen1 := macowFwdLoop_stackLen blockFwd mblocks x s 0 [] _ hloop
            have hlen2 := unsqRounds_len mint o1b rst _ hrounds
            simp only [List.length_nil] at hlen1 hlen2
            have hcount : mint = countInternal mblocks := by omega
            rw [hcount] at hrounds
            cases hg with
            | nobottom bs hgt =>
              obtain ⟨ldc, hch, hld⟩ := fwdAux_chain hgt hloop hunsq hrounds
              subst hld
              have hbwd := chainBwd_chainFwd hgt hch
              obtain ⟨s0, y0, hs0, hy0⟩ := chainBwd_entry hgt hbwd
              have hreal := macowBwd_realize hgt 0 [] hy0 hs0 hbwd
              rw [MaCowM.backward, MaCowM.backwardAux]
              simp only [hs0, hy0, Option.bind_eq_bind, Option.some_bind]
              cases hw : macowBwdSplit mblocks y0 s0 [] with
              | none => rw [hw] at hreal; simp at hreal
              | some w =>
                rw [hw] at hreal
                simp only [Option.bind_eq_bind, Option.some_bind] at hreal
                simp only [Option.some_bind]
                rw [hreal]
                simp only [Option.some_bind, Option.pure_def, List.isEmpty_nil,
                  if_true, Option.some.injEq, Prod.mk.injEq, true_and]
                ring
            | bottom steps bs hgt =>
              rw [macowFwdLoop] at hloop
              simp only [blockFwd, Option.bind_eq_bind, Option.some_bind] at hloop
              rw [countInternal_bottom] at hrounds
              obtain ⟨ldc, hch, hld⟩ := fwdAux_chain hgt hloop hunsq hrounds
              subst hld
              have hbwd := chainBwd_chainFwd hgt hch
              obtain ⟨s0, y0, hs0, hy0⟩ := chainBwd_entry hgt hbwd
              have hreal := macowBwd_realize hgt 0 [] hy0 hs0 hbwd
              rw [MaCowM.backward, MaCowM.backwardAux]
              simp only [hs0, hy0, Option.bind_eq_bind, Option.some_bind]
              rw [macowBwdSplit]
              simp only [List.reverse_cons]
              cases hw : macowBwdSplit bs y0 s0 [] with
              | none => rw [hw] at hreal; simp at hreal
              | some w =>
                rw [hw] at hreal
                simp only [Option.bind_eq_bind, Option.some_bind] at hreal
                simp only [Option.some_bind]
                rw [macowBwdLoop_append, hreal]
                simp only [Option.bind_eq_bind, Option.some_bind]
                rw [macowBwdLoop, blockBwd]
                simp only [Option.bind_eq_bind, Option.some_bind]
                rw [runFwd_inv (fun st2 => step_bwd_fwd st2) steps x s]
                simp only [macowBwdLoop, Option.some_bind, Option.pure_def,
                  List.isEmpty_nil, if_true, Option.some.injEq, Prod.mk.injEq,
                  true_and]
                ring

theorem Plane.pzip_shape (f : ℚ → ℚ → ℚ) : ∀ (p q : Plane),
    (Plane.pzip f p q).shape = p.shape := by
  intro p
  induction p with
  | leaf v =>
    intro q
    cases q <;> rfl
  | node a b c d iha ihb ihc ihd =>
    intro q
    cases q with
    | leaf w => rfl
    | node a2 b2 c2 d2 =>
      simp [Plane.pzip, Plane.shape, iha, ihb, ihc, ihd]

theorem Plane.pzip_pzip_right (f g : ℚ → ℚ → ℚ) (h : ℚ → ℚ) : ∀ (p q : Plane),
    p.shape = q.shape →
    Plane.pzip f (Plane.pzip g p q) (Plane.pmap h q)
      = Plane.pzip (fun a b => f (g a b) (h b)) p q := by
  intro p
  induction p with
  | leaf v =>
    intro q hq
    cases q with
    | leaf w => rfl
    | node a2 b2 c2 d2 => simp [Plane.shape] at hq
  | node a b c d iha ihb ihc ihd =>
    intro q hq
    cases q with
    | leaf w => simp [Plane.shape] at hq
    | node a2 b2 c2 d2 =>
      simp only [Plane.shape, PShape.snode.injEq] at hq
      obtain ⟨h1, h2, h3, h4⟩ := hq
      simp [Plane.pzip, Plane.pmap, iha _ h1, ihb _ h2, ihc _ h3, ihd _ h4]

theorem Plane.pzip_pzip_same (f g : ℚ → ℚ → ℚ) : ∀ (p q : Plane),
    p.shape = q.shape →
    Plane.pzip f (Plane.pzip g p q) q
      = Plane.pzip (fun a b => f (g a b) b) p q := by
  intro p
  induction p with
  | leaf v =>
    intro q hq
    cases q with
    | leaf w => rfl
    | node a2 b2 c2 d2 => simp [Plane.shape] at hq
  | node a b c d iha ihb ihc ihd =>
    intro q hq
    cases q with
    | leaf w => simp [Plane.shape] at hq
    | node a2 b2 c2 d2 =>
      simp only [Plane.shape, PShape.snode.injEq] at hq
      obtain ⟨h1, h2, h3, h4⟩ := hq
      simp [Plane.pzip, iha _ h1, ihb _ h2, ihc _ h3, ihd _ h4]

theorem Plane.pzip_fst : ∀ (p q : Plane), p.shape = q.shape →
    Plane.pzip (fun a _ => a) p q = p := by
  intro p
  induction p with
  | leaf v =>
    intro q hq
    cases q with
    | leaf w => rfl
    | node a2 b2 c2 d2 => simp [Plane.shape] at hq
  | node a b c d iha ihb ihc ihd =>
    intro q hq
    cases q with
    | leaf w => simp [Plane.shape] at hq
    | node a2 b2 c2 d2 =>
      simp only [Plane.shape, PShape.snode.injEq] at hq
      obtain ⟨h1, h2, h3, h4⟩ := hq
      simp [Plane.pzip, iha _ h1, ihb _ h2, ihc _ h3, ihd _ h4]

theorem Tensor.shape_cons_eq {p q : Plane} {A B : Tensor}
    (h : Tensor.shape (p :: A) = Tensor.shape (q :: B)) :
    p.shape = q.shape ∧ Tensor.shape A = Tensor.shape B := by
  simp only [Tensor.shape, List.map_cons, List.cons.injEq] at h
  exact h

theorem Tensor.tzip_tzip_right (f g : ℚ → ℚ → ℚ) (h : ℚ → ℚ) : ∀ (A B : Tensor),
    Tensor.shape A = Tensor.shape B →
    Tensor.tzip f (Tensor.tzip g A B) (Tensor.tmap h B)
      = Tensor.tzip (fun a b => f (g a b) (h b)) A B := by
  intro A
  induction A with
  | nil => intro B _; rfl
  | cons p A2 ih =>
    intro B hB
    cases B with
    | nil => simp [Tensor.shape] at hB
    | cons q B2 =>
      obtain ⟨h1, h2⟩ := Tensor.shape_cons_eq hB
      simp only [Tensor.tzip, Tensor.tmap, List.map_cons, List.zipWith_cons_cons]
      rw [Plane.pzip_pzip_right f g h p q h1]
      have := ih B2 h2
      simp only [Tensor.tzip, Tensor.tmap] at this
      rw [this]

theorem Tensor.tzip_tzip_same (f g : ℚ → ℚ → ℚ) : ∀ (A B : Tensor),
    Tensor.shape A = Tensor.shape B →
    Tensor.tzip f (Tensor.tzip g A B) B
      = Tensor.tzip (fun a b => f (g a b) b) A B := by
  intro A
  induction A with
  | nil => intro B _; rfl
  | cons p A2 ih =>
    intro B hB
    cases B with
    | nil => simp [Tensor.shape] at hB
    | cons q B2 =>
      obtain ⟨h1, h2⟩ := Tensor.shape_cons_eq hB
      simp only [Tensor.tzip, List.zipWith_cons_cons]
      rw [Plane.pzip_pzip_same f g p q h1]
      have := ih B2 h2
      simp only [Tensor.tzip] at this
      rw [this]

theorem Tensor.tzip_fst : ∀ (A B : Tensor),
    Tensor.shape A = Tensor.shape B →
    Tensor.tzip (fun a _ => a) A B = A := by
  intro A
  induction A with
  | nil => intro B _; rfl
  | cons p A2 ih =>
    intro B hB
    cases B with
    | nil => simp [Tensor.shape] at hB
    | cons q B2 =>
      obtain ⟨h1, h2⟩ := Tensor.shape_cons_eq hB
      simp only [Tensor.tzip, List.zipWith_cons_cons]
      rw [Plane.pzip_fst p q h1]
      have := ih B2 h2
      simp only [Tensor.tzip] at this
      rw [this]

theorem Tensor.tzip_shape (f : ℚ → ℚ → ℚ) : ∀ (A B : Tensor),
    Tensor.shape A = Tensor.shape B →
    Tensor.shape (Tensor.tzip f A B) = Tensor.shape A := by
  intro A
  induction A with
  | nil => intro B _; rfl
  | cons p A2 ih =>
    intro B hB
    cases B with
    | nil => simp [Tensor.shape] at hB
    | cons q B2 =>
      obtain ⟨h1, h2⟩ := Tensor.shape_cons_eq hB
      simp only [Tensor.tzip, List.zipWith_cons_cons, Tensor.shape, List.map_cons]
      rw [Plane.pzip_shape]
      have := ih B2 h2
      simp only [Tensor.shape, Tensor.tzip] at this
      simp [this]

theorem Tensor.shape_length {A B : Tensor} (h : Tensor.shape A = Tensor.shape B) :
    A.length = B.length := by
  have := congrArg List.length h
  simpa [Tensor.shape] using this

/-- `NICE.backward` applied to `NICE.forward`: the retained `z1` slice and
the log-determinant come back exactly; each entry of the transformed slice
comes back multiplied by `scale / (scale + 1e-12)` (exactly `z2` when the
`scale` flag is off, where the divisor is not used). -/
theorem nice_bwd_fwd (m : NICEM) (x : Tensor) (s : Option Tensor)
    (hn : m.z1_channels ≤ x.length)
    (hmu : Tensor.shape ((m.calc_mu_and_scale (x.take m.z1_channels) s).1)
      = Tensor.shape (x.drop m.z1_channels))
    (hsc : ∀ sc, (m.calc_mu_and_scale (x.take m.z1_channels) s).2 = some sc →
      Tensor.shape sc = Tensor.shape (x.drop m.z1_channels)) :
    m.backward (m.forward x s).1 s =
      (x.take m.z1_channels ++
        (match (m.calc_mu_and_scale (x.take m.z1_channels) s).2 with
          | some sc => Tensor.tzip (fun a c => a * c / (c + eps1e12))
              (x.drop m.z1_channels) sc
          | none => x.drop m.z1_channels),
        -(m.forward x s).2) := by
  have hlen : (x.take m.z1_channels).length = m.z1_channels := by
    simp [List.length_take]
    omega
  cases hms : (m.calc_mu_and_scale (x.take m.z1_channels) s).2 with
  | none =>
    simp only [NICEM.forward, NICEM.backward, hms]
    rw [List.take_left' hlen, List.drop_left' hlen, hms]
    rw [Tensor.tzip_tzip_same _ _ _ _ hmu.symm]
    have hfun : (fun a b => (a + b) - b) = (fun (a : ℚ) (_ : ℚ) => a) := by
      funext a b
      ring
    rw [hfun, Tensor.tzip_fst _ _ hmu.symm]
    simp
  | some sc =>
    have hscs := hsc sc hms
    simp only [NICEM.forward, NICEM.backward, hms]
    rw [List.take_left' hlen, List.drop_left' hlen, hms]
    have hw1 : Tensor.shape (Tensor.tzip (· * ·) (x.drop m.z1_channels) sc)
        = Tensor.shape (x.drop m.z1_channels) :=
      Tensor.tzip_shape _ _ _ hscs.symm
    rw [Tensor.tzip_tzip_same _ _ _ _ (by rw [hw1, hmu])]
    have hfun : (fun a b => (a + b) - b) = (fun (a : ℚ) (_ : ℚ) => a) := by
      funext a b
      ring
    rw [hfun, Tensor.tzip_fst _ _ (by rw [hw1, hmu])]
    dsimp only
    rw [Tensor.tzip_tzip_right _ _ _ _ _ hscs.symm]
    simp [mul_comm]

/-- The retained slice of a `NICE` pass is the corresponding slice of the
input: common argument for the three operations. -/
theorem nice_take_aux (n : ℕ) (x z2b : Tensor)
    (hz : x.drop n = [] → z2b = []) :
    (x.take n ++ z2b).take n = x.take n := by
  rcases le_or_lt n x.length with hle | hlt
  · have hlen : (x.take n).length = n := by
      simp [List.length_take]
      omega
    exact List.take_left' hlen
  · have hdrop : x.drop n = [] := by
      apply List.drop_eq_nil_of_le
      omega
    rw [hz hdrop, List.append_nil, List.take_take]
    simp

/-- The layer loop of `MaCowInternalBlock.__init__` subtracts the fixed
`channel_step` once per layer. -/
theorem mkInternalLayers_z1 (gL : ℕ → ℕ → List MaCowStepM)
    (gP : ℕ → ℕ → CFlow) (cs : ℕ) : ∀ (ns : List ℕ) (cIn f : ℕ)
    {ls : List (List MaCowStepM × PriorF)} {z1 : ℕ},
    mkInternalLayers gL gP cs ns cIn f = some (ls, z1) →
    z1 = cIn - ns.length * cs := by
  intro ns
  induction ns with
  | nil =>
    intro cIn f ls z1 h
    simp only [mkInternalLayers, Option.some.injEq, Prod.mk.injEq] at h
    obtain ⟨h1, h2⟩ := h
    simp only [List.length_nil, Nat.zero_mul, Nat.sub_zero]
    omega
  | cons n rest ih =>
    intro cIn f ls z1 h
    rw [mkInternalLayers] at h
    split at h
    · simp only [Option.bind_eq_bind, Option.bind_eq_some, Option.pure_def,
        Option.some.injEq, Prod.mk.injEq] at h
      obtain ⟨⟨ls2, z2⟩, hrec, h1, h2⟩ := h
      have := ih (cIn - cs) (f - 1) hrec
      rw [List.length_cons, Nat.succ_mul]
      omega
    · simp at h

/-- `MaCowInternalBlock.__init__` retains
`in_channels - num_layers * (in_channels // factor)` channels. -/
theorem mkInternalBlock_z1 (gL : ℕ → ℕ → List MaCowStepM)
    (gP : ℕ → ℕ → CFlow) (ns : List ℕ) (cIn f : ℕ) {ib : MaCowInternalBlockM}
    (h : mkInternalBlock gL gP ns cIn f = some ib) :
    ib.z1_channels = cIn - ns.length * (cIn / f) := by
  rw [mkInternalBlock] at h
  split at h
  · simp only [Option.bind_eq_bind, Option.bind_eq_some, Option.pure_def,
      Option.some.injEq] at h
    obtain ⟨⟨ls, z1⟩, hrec, hib⟩ := h
    have := mkInternalLayers_z1 gL gP (cIn / f) ns cIn f hrec
    rw [← hib]
    exact this
  · simp at h

/-- The level loop of `MaCow.__init__` builds a well-shaped non-bottom
tail. -/
theorem mkBlocks_goodTail (gS gL : ℕ → ℕ → List MaCowStepM)
    (gP : ℕ → ℕ → CFlow) : ∀ (cfg : List (NumCfg × ℕ)) (c : ℕ)
    {bs : List MaCowBlockM},
    mkBlocks gS gL gP cfg c false = some bs → GoodTail bs := by
  intro cfg
  induction cfg with
  | nil =>
    intro c bs h
    simp [mkBlocks] at h
  | cons e rest ih =>
    intro c bs h
    obtain ⟨cfg0, f0⟩ := e
    cases rest with
    | nil =>
      cases cfg0 with
      | single n =>
        simp only [mkBlocks, Option.some.injEq] at h
        subst h
        exact GoodTail.top _ _
      | multi ns => simp [mkBlocks] at h
    | cons e2 rest2 =>
      cases cfg0 with
      | single n => simp [mkBlocks] at h
      | multi ns =>
        rw [mkBlocks] at h
        · simp only [Bool.false_eq_true, if_false, Option.bind_eq_bind,
            Option.bind_eq_some, Option.pure_def, Option.some.injEq] at h
          obtain ⟨ib, hib, bs2, hbs2, hbs⟩ := h
          subst hbs
          exact GoodTail.internal ib _ (ih _ hbs2)
        · simp

/-- The level loop of `MaCow.__init__` on a non-bottom tail builds one
internal block per level plus the top block. -/
theorem mkBlocks_count (gS gL : ℕ → ℕ → List MaCowStepM)
    (gP : ℕ → ℕ → CFlow) : ∀ (cfg : List (NumCfg × ℕ)) (c : ℕ)
    {bs : List MaCowBlockM},
    mkBlocks gS gL gP cfg c false = some bs → countInternal bs + 1 = cfg.length := by
  intro cfg
  induction cfg with
  | nil =>
    intro c bs h
    simp [mkBlocks] at h
  | cons e rest ih =>
    intro c bs h
    obtain ⟨cfg0, f0⟩ := e
    cases rest with
    | nil =>
      cases cfg0 with
      | single n =>
        simp only [mkBlocks, Option.some.injEq] at h
        subst h
        simp [countInternal, List.filter, MaCowBlockM.isInternal]
      | multi ns => simp [mkBlocks] at h
    | cons e2 rest2 =>
      cases cfg0 with
      | single n => simp [mkBlocks] at h
      | multi ns =>
        rw [mkBlocks] at h
        · simp only [Bool.false_eq_true, if_false, Option.bind_eq_bind,
            Option.bind_eq_some, Option.pure_def, Option.some.injEq] at h
          obtain ⟨ib, hib, bs2, hbs2, hbs⟩ := h
          subst hbs
          have := ih _ hbs2
          rw [countInternal_internal]
          simp only [List.length_cons] at this ⊢
          omega
        · simp

/-- The level loop of `MaCow.__init__` puts the top block last, with the
channel count given by `macowTopChannels`. -/
theorem mkBlocks_top (gS gL : ℕ → ℕ → List MaCowStepM)
    (gP : ℕ → ℕ → CFlow) : ∀ (cfg : List (NumCfg × ℕ)) (c : ℕ)
    {bs : List MaCowBlockM},
    mkBlocks gS gL gP cfg c false = some bs →
    ∃ steps, bs.getLast? = some (.topB (macowTopChannels c (cfgPairs cfg)) steps) := by
  intro cfg
  induction cfg with
  | nil =>
    intro c bs h
    simp [mkBlocks] at h
  | cons e rest ih =>
    intro c bs h
    obtain ⟨cfg0, f0⟩ := e
    cases rest with
    | nil =>
      cases cfg0 with
      | single n =>
        simp only [mkBlocks, Option.some.injEq] at h
        subst h
        refine ⟨gS (c * 4) n, ?_⟩
        simp [cfgPairs, macowTopChannels, List.getLast?]
      | multi ns => simp [mkBlocks] at h
    | cons e2 rest2 =>
      cases cfg0 with
      | single n => simp [mkBlocks] at h
      | multi ns =>
        rw [mkBlocks] at h
        · simp only [Bool.false_eq_true, if_false, Option.bind_eq_bind,
            Option.bind_eq_some, Option.pure_def, Option.some.injEq] at h
          obtain ⟨ib, hib, bs2, hbs2, hbs⟩ := h
          subst hbs
          obtain ⟨steps, hlast⟩ := ih _ hbs2
          refine ⟨steps, ?_⟩
          cases bs2 with
          | nil => simp at hlast
          | cons b0 bs3 =>
            rw [List.getLast?_cons_cons, hlast]
            have hz := mkInternalBlock_z1 gL gP ns (c * 4) f0 hib
            have hpairs : cfgPairs ((NumCfg.multi ns, f0) :: e2 :: rest2)
                = (ns.length, f0) :: cfgPairs (e2 :: rest2) := rfl
            rw [hpairs]
            have hstep : macowTopChannels c ((ns.length, f0) :: cfgPairs (e2 :: rest2))
                = macowTopChannels (c * 4 - ns.length * (c * 4 / f0))
                    (cfgPairs (e2 :: rest2)) := by
              simp [macowTopChannels, List.foldl_cons]
            rw [hstep, ← hz]
        · simp

/-- Everything `MaCow.__init__` guarantees about a successfully constructed
pyramid: the block list is well-shaped, the recorded `internals` equals the
number of internal blocks, the recorded `levels` is the argument, and the
top block records the channel count computed by `macowTopChannels` over
the internal-level configuration. -/
theorem mkMaCow_spec (gS gL : ℕ → ℕ → List MaCowStepM) (gP : ℕ → ℕ → CFlow)
    (levels : ℕ) (nsteps : List NumCfg) (cIn : ℕ) (factors : List ℕ)
    (bottom : Bool) {m : MaCowM}
    (h : mkMaCow gS gL gP levels nsteps cIn factors bottom = some m) :
    GoodBlocks m.blocks ∧ m.internals = countInternal m.blocks ∧
      m.levels = levels ∧
      m.topChannels = macowTopChannels cIn (mkMaCowCfg nsteps factors bottom) := by
  cases bottom with
  | false =>
    simp only [mkMaCow, Bool.false_eq_true, if_false] at h
    split at h
    · split at h
      · rename_i hlev hc
        simp only [Option.bind_eq_bind, Option.bind_eq_some, Option.pure_def,
          Option.some.injEq] at h
        obtain ⟨bs, hbs, hm⟩ := h
        subst hm
        obtain ⟨steps, hlast⟩ := mkBlocks_top gS gL gP _ cIn hbs
        have hcnt := mkBlocks_count gS gL gP _ cIn hbs
        have hplen : (nsteps.zip (factors ++ [0])).length = levels := by
          rw [List.length_zip]
          omega
        refine ⟨GoodBlocks.nobottom bs (mkBlocks_goodTail gS gL gP _ cIn hbs),
          ?_, rfl, ?_⟩
        · dsimp only
          omega
        · rw [MaCowM.topChannels]
          dsimp only
          rw [hlast]
          simp only [mkMaCowCfg, Bool.false_eq_true, if_false]
      · exact absurd h (by simp)
    · exact absurd h (by simp)
  | true =>
    simp only [mkMaCow, if_true] at h
    split at h
    · split at h
      · rename_i hlev hc
        simp only [Option.bind_eq_bind, Option.bind_eq_some, Option.pure_def,
          Option.some.injEq] at h
        obtain ⟨bs, hbs, hm⟩ := h
        subst hm
        have hplen : (nsteps.zip (0 :: factors ++ [0])).length = levels := by
          rw [List.length_zip]
          simp only [List.length_cons, List.length_append, List.length_singleton] at hc ⊢
          omega
        cases hp : nsteps.zip (0 :: factors ++ [0]) with
        | nil =>
          rw [hp] at hplen
          simp only [List.length_nil] at hplen
          omega
        | cons e pr =>
          cases pr with
          | nil =>
            rw [hp] at hplen
            simp only [List.length_cons, List.length_nil] at hplen
            omega
          | cons e2 rest2 =>
            rw [hp] at hbs
            obtain ⟨cfg0, f0⟩ := e
            cases cfg0 with
            | multi ns => simp [mkBlocks] at hbs
            | single n =>
              rw [mkBlocks] at hbs
              · simp only [if_true, Option.map_eq_some'] at hbs
                obtain ⟨bs2, hbs2, hbseq⟩ := hbs
                subst hbseq
                obtain ⟨steps, hlast⟩ := mkBlocks_top gS gL gP _ cIn hbs2
                have hcnt := mkBlocks_count gS gL gP _ cIn hbs2
                have hlen2 : (e2 :: rest2).length = levels - 1 := by
                  rw [hp] at hplen
                  simp only [List.length_cons] at hplen ⊢
                  omega
                refine ⟨GoodBlocks.bottom _ _ (mkBlocks_goodTail gS gL gP _ cIn hbs2),
                  ?_, rfl, ?_⟩
                · dsimp only
                  rw [countInternal_bottom]
                  omega
                · rw [MaCowM.topChannels]
                  dsimp only
                  cases bs2 with
                  | nil => simp at hlast
                  | cons b0 bs3 =>
                    rw [List.getLast?_cons_cons, hlast]
                    simp only [mkMaCowCfg, if_true]
                    rw [hp]
                    simp [List.drop]
              · simp
      · exact absurd h (by simp)
    · exact absurd h (by simp)

/-- Reversing the block list preserves the number of internal blocks. -/
theorem countInternal_reverse (bs : List MaCowBlockM) :
    countInternal bs.reverse = countInternal bs := by
  rw [countInternal, countInternal, List.filter_reverse, List.length_reverse]

/-- Residual-stack accounting of `MaCow.forward` before its assertion: the
block loop pushes one slice per internal block and the reconstruction pops
one per recorded internal level. -/
theorem macowFwdAux_stack (m : MaCowM) {x : Tensor} {s : Option Tensor}
    {r : Tensor × ℚ} {st : List Tensor} (h : m.forwardAux x s = some (r, st)) :
    st.length + m.internals = countInternal m.blocks := by
  rw [MaCowM.forwardAux] at h
  cases hloop : macowFwdLoop blockFwd m.blocks x s 0 [] with
  | none => rw [hloop] at h; simp at h
  | some q =>
    obtain ⟨rout, rs, rld, rst⟩ := q
    rw [hloop] at h
    simp only [Option.bind_eq_bind, Option.some_bind] at h
    cases hunsq : unsqueeze2d rout with
    | none => rw [hunsq] at h; simp at h
    | some o1 =>
      rw [hunsq] at h
      simp only [Option.some_bind] at h
      cases hr : unsqRounds m.internals o1 rst with
      | none => rw [hr] at h; simp at h
      | some z =>
        obtain ⟨z1, z2⟩ := z
        rw [hr] at h
        simp only [Option.some_bind, Option.pure_def, Option.some.injEq,
          Prod.mk.injEq] at h
        obtain ⟨h1, h2⟩ := h
        subst h2
        have hl1 := macowFwdLoop_stackLen blockFwd m.blocks x s 0 [] _ hloop
        have hl2 := unsqRounds_len m.internals o1 rst _ hr
        simp only [List.length_nil] at hl1
        dsimp only at hl1 hl2
        omega

/-- Residual-stack accounting of `MaCow.init` before its assertion. -/
theorem macowInitAux_stack (m : MaCowM) {d : Tensor} {s : Option Tensor}
    {sc : ℚ} {r : Tensor × ℚ} {st : List Tensor}
    (h : m.initAux d s sc = some (r, st)) :
    st.length + m.internals = countInternal m.blocks := by
  rw [MaCowM.initAux] at h
  cases hloop : macowFwdLoop (blockInit sc) m.blocks d s 0 [] with
  | none => rw [hloop] at h; simp at h
  | some q =>
    obtain ⟨rout, rs, rld, rst⟩ := q
    rw [hloop] at h
    simp only [Option.bind_eq_bind, Option.some_bind] at h
    cases hunsq : unsqueeze2d rout with
    | none => rw [hunsq] at h; simp at h
    | some o1 =>
      rw [hunsq] at h
      simp only [Option.some_bind] at h
      cases hr : unsqRounds m.internals o1 rst with
      | none => rw [hr] at h; simp at h
      | some z =>
        obtain ⟨z1, z2⟩ := z
        rw [hr] at h
        simp only [Option.some_bind, Option.pure_def, Option.some.injEq,
          Prod.mk.injEq] at h
        obtain ⟨h1, h2⟩ := h
        subst h2
        have hl1 := macowFwdLoop_stackLen (blockInit sc) m.blocks d s 0 [] _ hloop
        have hl2 := unsqRounds_len m.internals o1 rst _ hr
        simp only [List.length_nil] at hl1
        dsimp only at hl1 hl2
        omega

/-- `MaCow.backward` always consumes its whole slice stack: the first loop
pushes one slice per internal block and the second pops one per internal
block of the reversed list. -/
theorem macowBwdAux_stack (m : MaCowM) {y : Tensor} {s : Option Tensor}
    {r : Tensor × ℚ} {st : List Tensor}
    (h : m.backwardAux y s = some (r, st)) : st = [] := by
  rw [MaCowM.backwardAux] at h
  cases hs0 : squeezeS s with
  | none => rw [hs0] at h; simp at h
  | some s0 =>
    rw [hs0] at h
    simp only [Option.bind_eq_bind, Option.some_bind] at h
    cases ho0 : squeeze2d y with
    | none => rw [ho0] at h; simp at h
    | some out0 =>
      rw [ho0] at h
      simp only [Option.some_bind] at h
      cases hsp : macowBwdSplit m.blocks out0 s0 [] with
      | none => rw [hsp] at h; simp at h
      | some w =>
        obtain ⟨o1, s1, outs⟩ := w
        rw [hsp] at h
        simp only [Option.some_bind] at h
        cases hlp : macowBwdLoop m.blocks.reverse o1 s1 0 outs with
        | none => rw [hlp] at h; simp at h
        | some q =>
          obtain ⟨o2, s2, ld2, st2⟩ := q
          rw [hlp] at h
          simp only [Option.some_bind, Option.pure_def, Option.some.injEq,
            Prod.mk.injEq] at h
          obtain ⟨h1, h2⟩ := h
          subst h2
          have hl1 := macowBwdSplit_stackLen m.blocks out0 s0 [] _ hsp
          have hl2 := macowBwdLoop_stackLen m.blocks.reverse o1 s1 0 outs _ hlp
          rw [countInternal_reverse] at hl2
          simp only [List.length_nil] at hl1
          dsimp only at hl1 hl2
          apply List.eq_nil_of_length_eq_zero
          omega

/-- `MaCowInternalBlock.backward` always consumes its whole slice stack:
one slice is recorded per layer on the way down and one is popped per
layer of the reversed list on the way up. -/
theorem internalBwdAux_stack (b : MaCowInternalBlockM) {y : Tensor}
    {s : Option Tensor} {r : Tensor × ℚ} {st : List Tensor}
    (h : b.backwardAux y s = some (r, st)) : st = [] := by
  have hc := intBwd_eq_chain b.layers y s 0 []
  rw [MaCowInternalBlockM.backwardAux] at h
  cases hsp : internalBwdSplit b.layers y [] with
  | none => rw [hsp] at h; simp at h
  | some w =>
    obtain ⟨o1, outs⟩ := w
    rw [hsp] at h
    simp only [hsp, Option.bind_eq_bind, Option.some_bind] at h hc
    cases hlp : internalBwdLoop b.layers.reverse o1 s 0 outs with
    | none => rw [hlp] at h; simp at h
    | some q =>
      obtain ⟨o2, ld2, st2⟩ := q
      rw [hlp] at h hc
      simp only [Option.some_bind, Option.pure_def, Option.some.injEq,
        Prod.mk.injEq] at h
      obtain ⟨h1, h2⟩ := h
      cases hch : chainIntBwd b.layers y s with
      | none => rw [hch] at hc; simp at hc
      | some p =>
        rw [hch] at hc
        simp only [Option.map_some', Option.some.injEq, Prod.mk.injEq] at hc
        rw [← h2]
        exact hc.2.2

/-- `view(batch, n, ...)` produces `batch` rows. -/
theorem chunkRows_length {α : Type} : ∀ (batch n : ℕ) (l : List α),
    (chunkRows batch n l).length = batch := by
  intro batch
  induction batch with
  | zero => intro n l; rfl
  | succ b ih =>
    intro n l
    rw [chunkRows, List.length_cons, ih]

/-- Row `b` of `view(batch, n, ...)` is the `b`-th length-`n` slice of the
flat list. -/
theorem chunkRows_getAt {α : Type} : ∀ (batch n : ℕ) (l : List α) (b : ℕ),
    b < batch → (chunkRows batch n l)[b]? = some ((l.drop (b * n)).take n) := by
  intro batch
  induction batch with
  | zero => intro n l b hb; omega
  | succ bt ih =>
    intro n l b hb
    cases b with
    | zero => simp [chunkRows]
    | succ b2 =>
      rw [chunkRows]
      simp only [List.getElem?_cons_succ]
      rw [ih n (l.drop n) b2 (by omega), List.drop_drop]
      have harith : n + b2 * n = (b2 + 1) * n := by ring
      rw [harith]

/-- Entry `(b, j)` of `view(batch, n, ...)` is flat entry `b * n + j`. -/
theorem chunkRows_getAt2 {α : Type} (batch n : ℕ) (l : List α) (b j : ℕ)
    (hb : b < batch) (hj : j < n) :
    ((chunkRows batch n l)[b]?).bind (fun row => row[j]?) = l[b * n + j]? := by
  rw [chunkRows_getAt batch n l b hb]
  simp only [Option.some_bind]
  rw [List.getElem?_take, if_pos hj, List.getElem?_drop]

/-- Indexing a zip of two lists indexes both. -/
theorem zipWith_getAt {α β γ : Type} (f : α → β → γ) :
    ∀ (as : List α) (bs : List β) (i : ℕ),
    (List.zipWith f as bs)[i]? = (as[i]?).bind (fun a => (bs[i]?).map (f a)) := by
  intro as
  induction as with
  | nil => intro bs i; simp
  | cons a as2 ih =>
    intro bs i
    cases bs with
    | nil => simp
    | cons b bs2 =>
      cases i with
      | zero => simp
      | succ i2 => simp [ih bs2 i2]

/-- Flat entry `b * n + j` of the `n`-fold in-place repetition of a batch
is sample `b` (the broadcast `x.unsqueeze(1) + zeros(batch, nsamples, ...)`
then `view(-1, ...)` does not reorder samples). -/
theorem joinRep_getAt {α : Type} (n : ℕ) : ∀ (x : List α) (b j : ℕ), j < n →
    ((x.map (List.replicate n)).join)[b * n + j]? = x[b]? := by
  intro x
  induction x with
  | nil => intro b j hj; simp
  | cons a tl ih =>
    intro b j hj
    simp only [List.map_cons, List.join_cons]
    cases b with
    | zero =>
      have h0 : 0 * n + j = j := by ring
      rw [h0, List.getElem?_append]
      simp [List.length_replicate, hj, List.getElem?_replicate]
    | succ b2 =>
      have hmul : (b2 + 1) * n = b2 * n + n := by ring
      have hmul2 : b2.succ * n = b2 * n + n := by rw [Nat.succ_mul]
      rw [List.getElem?_append,
        if_neg (by simp only [List.length_replicate]; omega)]
      simp only [List.length_replicate, List.getElem?_cons_succ]
      rw [← ih b2 j hj]
      congr 1
      omega

/-- Length of the `n`-fold in-place repetition of a batch. -/
theorem joinRep_length {α : Type} (n : ℕ) : ∀ (x : List α),
    ((x.map (List.replicate n)).join).length = x.length * n := by
  intro x
  induction x with
  | nil => simp
  | cons a tl ih =>
    simp only [List.map_cons, List.join_cons, List.length_append,
      List.length_replicate, List.length_cons, ih]
    ring

/-- The broadcast batch of `VDeQuantFlowGenModel.dequantize` at flat index
`b * nsamples + j` is sample `b`, for `1 ≤ nsamples` (no broadcast is
performed when `nsamples == 1`). -/
theorem broadcast_getAt {α : Type} (x : List α) (n b j : ℕ) (hn : 1 ≤ n)
    (hj : j < n) :
    (if 1 < n then (x.map (List.replicate n)).join else x)[b * n + j]? = x[b]? := by
  rcases lt_or_eq_of_le hn with h1 | h1
  · rw [if_pos h1]
    exact joinRep_getAt n x b j hj
  · rw [if_neg (by omega)]
    have hn1 : n = 1 := h1.symm
    subst hn1
    have hj0 : j = 0 := by omega
    subst hj0
    simp

/-- Length of the broadcast batch. -/
theorem broadcast_length {α : Type} (x : List α) (n : ℕ) (hn : 1 ≤ n) :
    (if 1 < n then (x.map (List.replicate n)).join else x).length = x.length * n := by
  rcases lt_or_eq_of_le hn with h1 | h1
  · rw [if_pos h1]
    exact joinRep_length n x
  · rw [if_neg (by omega), ← h1]
    simp

/-!
### The claims -/

/-- Claim C2: `FlowGenModel.log_probability(x)` returns, per sample,
`-1/2 * (the sum of squares of the flattened latent + d * log(2*pi))
+ logdet` where `(z, logdet) = encode(x)` and `d` is the flattened
dimensionality of `z`; `encode` is the flow's `bwdpass`, which on an
inverse-mode flow delegates to the flow's own `forward`. -/
theorem claim_C2 (log2pi : ℚ) (m : FlowGenM) (x z : Tensor) (ld : ℚ)
    (h : m.encode x = some (z, ld)) :
    m.log_probability log2pi x
      = some (-(1 / 2) * (((Tensor.flatten z).map (fun v => v * v)).sum
          + ((Tensor.flatten z).length : ℚ) * log2pi) + ld) ∧
    (m.flow.inverse = true → m.encode x = some (m.flow.forward x none)) := by
  constructor
  · simp only [FlowGenM.log_probability, h, Option.bind_eq_bind, Option.some_bind,
      Option.pure_def, Option.some.injEq]
    ring
  · intro hi
    rw [FlowGenM.encode, FlowM.bwdpass, hi]
    simp

/-- Witness for C2 at a concrete model and input. -/
theorem claim_C2_witness :
    fgen0.encode [Plane.leaf 2] = some ([Plane.leaf 2], 5) ∧
    (FlowGenM.log_probability 7 fgen0 [Plane.leaf 2]
      = some (-(1 / 2) * (((Tensor.flatten [Plane.leaf 2]).map (fun v => v * v)).sum
          + ((Tensor.flatten [Plane.leaf 2]).length : ℚ) * 7) + 5) ∧
      (fgen0.flow.inverse = true →
        fgen0.encode [Plane.leaf 2] = some (fgen0.flow.forward [Plane.leaf 2] none))) :=
  ⟨by rfl, claim_C2 7 fgen0 [Plane.leaf 2] [Plane.leaf 2] 5 (by rfl)⟩

/-- Claim C4: `fwdpass(init=true)` on an inverse flow and
`bwdpass(init=true)` on a non-inverse flow are rejected (`none`, the
modelled `RuntimeError`) before any computation; with `init=false` the same
calls succeed and delegate to the underlying operation (`fwdpass`
additionally negates the log-determinant). -/
theorem claim_C4 (f : FlowM) (x : Tensor) (h : Option Tensor) (sc : ℚ) :
    (f.inverse = true → f.fwdpass x h true sc = none) ∧
    (f.inverse = false → f.bwdpass x h true sc = none) ∧
    (f.inverse = true → f.fwdpass x h false sc
      = some ((f.backward x h).1, -(f.backward x h).2)) ∧
    (f.inverse = false → f.bwdpass x h false sc = some (f.backward x h)) ∧
    (f.inverse = true → f.bwdpass x h true sc = some (f.init x h sc)) := by
  refine ⟨?_, ?_, ?_, ?_, ?_⟩ <;> intro hi <;>
    simp [FlowM.fwdpass, FlowM.bwdpass, hi]

/-- Claim C5: for a non-inverse flow, `fwdpass(x, init=false)` returns the
`forward` output with the exactly negated log-determinant. -/
theorem claim_C5 (f : FlowM) (x : Tensor) (h : Option Tensor) (sc : ℚ)
    (hinv : f.inverse = false) :
    f.fwdpass x h false sc = some ((f.forward x h).1, -(f.forward x h).2) := by
  simp [FlowM.fwdpass, hinv]

/-- Witness for C5 at a concrete non-inverse flow. -/
theorem claim_C5_witness :
    flow0.inverse = false ∧
    flow0.fwdpass [Plane.leaf 1] none false 1
      = some ((flow0.forward [Plane.leaf 1] none).1,
          -(flow0.forward [Plane.leaf 1] none).2) :=
  ⟨rfl, claim_C5 flow0 [Plane.leaf 1] none 1 rfl⟩

/-- Claim C9 (amended): `NICE.backward` divides `z2 - mu` by
`scale + 1e-12`, i.e. the coupling path DOES clamp its division with the
additive epsilon (`z2.div(scale + 1e-12)`, nice.py line 132); without
scaling the two readings agree. -/
theorem claim_C9 (m : NICEM) (x : Tensor) (s : Option Tensor) :
    m.backward x s = m.backwardWithEps x s ∧
    (m.scale = false → m.backward x s = m.backwardNoEps x s) := by
  constructor
  · rw [NICEM.backward, NICEM.backwardWithEps]
  · intro hscale
    have hms : (m.calc_mu_and_scale (x.take m.z1_channels) s).2 = none := by
      rw [NICEM.calc_mu_and_scale]
      simp [hscale]
    rw [NICEM.backward, NICEM.backwardNoEps, hms]

/-- Counterexample to the spec's C9 sentence: on a concrete scaled `NICE`
coupling, the source's backward (with the epsilon clamp) differs from the
spec's epsilon-free formula. -/
theorem claim_C9_counterexample :
    NICEM.backward nice0 niceX none ≠ NICEM.backwardNoEps nice0 niceX none := by
  intro hEq
  have h1 := congrArg (fun p => p.1) hEq
  simp [NICEM.backward, NICEM.backwardNoEps, NICEM.calc_mu_and_scale,
    nice0, niceX, Tensor.tzip, Tensor.tmap, Plane.pzip, Plane.pmap,
    eps1e12] at h1
  norm_num at h1

/-- Claim C10: the first `z1_channels` channels pass through `NICE.forward`,
`NICE.backward` and `NICE.init` unchanged. -/
theorem claim_C10 (m : NICEM) (x : Tensor) (s : Option Tensor) (sc : ℚ) :
    ((m.forward x s).1.take m.z1_channels = x.take m.z1_channels) ∧
    ((m.backward x s).1.take m.z1_channels = x.take m.z1_channels) ∧
    ((m.init x s sc).1.take m.z1_channels = x.take m.z1_channels) := by
  refine ⟨?_, ?_, ?_⟩
  · rw [NICEM.forward]
    dsimp only
    apply nice_take_aux
    intro hd
    rw [hd]
    cases hms : (m.calc_mu_and_scale (x.take m.z1_channels) s).2 <;>
      simp [Tensor.tzip]
  · rw [NICEM.backward]
    dsimp only
    apply nice_take_aux
    intro hd
    rw [hd]
    cases hms : (m.calc_mu_and_scale (x.take m.z1_channels) s).2 <;>
      simp [Tensor.tzip]
  · rw [NICEM.init]
    dsimp only
    apply nice_take_aux
    intro hd
    rw [hd]
    cases hms : (m.init_net (x.take m.z1_channels) s sc).2 <;>
      simp [Tensor.tzip]

/-- Claim C1: backward inverts forward with exactly negated log-determinant
at every level of composition: `MaCowUnit`, `MaCowStep`, each block kind
(bottom / internal / top), every well-shaped pyramid, and every pyramid
built by `MaCow.__init__`; and for `NICE` without scaling exactly, while
the scaled coupling recovers `z2 * s / (s + 1e-12)` (the identity up to
the backward epsilon clamp). -/
theorem claim_C1 :
    (∀ (u : MaCowUnitM) (x : Tensor) (s : Option Tensor),
      u.backward (u.forward x s).1 s = (x, -(u.forward x s).2)) ∧
    (∀ (st : MaCowStepM) (x : Tensor) (s : Option Tensor),
      st.backward (st.forward x s).1 s = (x, -(st.forward x s).2)) ∧
    (∀ (blk : MaCowBlockM) (x y : Tensor) (s : Option Tensor) (ld : ℚ),
      blockFwd blk x s = some (y, ld) → blockBwd blk y s = some (x, -ld)) ∧
    (∀ (m : MaCowM), GoodBlocks m.blocks →
      ∀ (x y : Tensor) (s : Option Tensor) (ld : ℚ),
      m.forward x s = some (y, ld) → m.backward y s = some (x, -ld)) ∧
    (∀ (gS gL : ℕ → ℕ → List MaCowStepM) (gP : ℕ → ℕ → CFlow) (levels : ℕ)
      (nsteps : List NumCfg) (cIn : ℕ) (factors : List ℕ) (bottom : Bool)
      (m : MaCowM), mkMaCow gS gL gP levels nsteps cIn factors bottom = some m →
      ∀ (x y : Tensor) (s : Option Tensor) (ld : ℚ),
      m.forward x s = some (y, ld) → m.backward y s = some (x, -ld)) ∧
    (∀ (nm : NICEM) (x : Tensor) (s : Option Tensor), nm.scale = false →
      nm.z1_channels ≤ x.length →
      Tensor.shape ((nm.calc_mu_and_scale (x.take nm.z1_channels) s).1)
        = Tensor.shape (x.drop nm.z1_channels) →
      nm.backward (nm.forward x s).1 s = (x, -(nm.forward x s).2)) ∧
    (∀ (nm : NICEM) (x : Tensor) (s : Option Tensor) (sc : Tensor),
      nm.z1_channels ≤ x.length →
      Tensor.shape ((nm.calc_mu_and_scale (x.take nm.z1_channels) s).1)
        = Tensor.shape (x.drop nm.z1_channels) →
      (nm.calc_mu_and_scale (x.take nm.z1_channels) s).2 = some sc →
      Tensor.shape sc = Tensor.shape (x.drop nm.z1_channels) →
      nm.backward (nm.forward x s).1 s
        = (x.take nm.z1_channels
            ++ Tensor.tzip (fun a c => a * c / (c + eps1e12))
              (x.drop nm.z1_channels) sc,
          -(nm.forward x s).2)) := by
  refine ⟨unit_bwd_fwd, step_bwd_fwd, ?_, ?_, ?_, ?_, ?_⟩
  · intro blk x y s ld hf
    cases blk with
    | bottomB steps =>
      simp only [blockFwd, Option.some.injEq] at hf
      have hy := congrArg Prod.fst hf
      have hld := congrArg Prod.snd hf
      dsimp only at hy hld
      subst hy hld
      rw [blockBwd]
      rw [runFwd_inv (fun st2 => step_bwd_fwd st2) steps x s]
    | topB c steps =>
      simp only [blockFwd, Option.some.injEq] at hf
      have hy := congrArg Prod.fst hf
      have hld := congrArg Prod.snd hf
      dsimp only at hy hld
      subst hy hld
      rw [blockBwd]
      rw [runFwd_inv (fun st2 => step_bwd_fwd st2) steps x s]
    | internalB b =>
      exact internalBlock_bwd_fwd b hf
  · intro m hg x y s ld hf
    exact macow_bwd_fwd_good hg hf
  · intro gS gL gP levels nsteps cIn factors bottom m hmk x y s ld hf
    exact macow_bwd_fwd_good
      (mkMaCow_spec gS gL gP levels nsteps cIn factors bottom hmk).1 hf
  · intro nm x s hscale hn hmu
    have hms : (nm.calc_mu_and_scale (x.take nm.z1_channels) s).2 = none := by
      rw [NICEM.calc_mu_and_scale]
      simp [hscale]
    have hb := nice_bwd_fwd nm x s hn hmu
      (fun sc2 hsc2 => by rw [hms] at hsc2; cases hsc2)
    rw [hb, hms]
    rw [List.take_append_drop]
  · intro nm x s sc hn hmu hms hscs
    have hb := nice_bwd_fwd nm x s hn hmu
      (fun sc2 hsc2 => by
        rw [hms] at hsc2
        cases hsc2
        exact hscs)
    rw [hb, hms]

/-- Claim C3: the slice stack of every full traversal ends empty — one
slice per internal level / layer is pushed and every one is popped — so the
final assertion passes and the pass returns; when the stack would not be
empty (mismatched `internals` counter), `forward` / `init` abort with the
assertion (`none`) instead of dropping data. -/
theorem claim_C3 :
    (∀ (m : MaCowM), m.internals = countInternal m.blocks →
      ∀ (x : Tensor) (s : Option Tensor) (r : Tensor × ℚ) (st : List Tensor),
      m.forwardAux x s = some (r, st) → st = [] ∧ m.forward x s = some r) ∧
    (∀ (m : MaCowM), m.internals = countInternal m.blocks →
      ∀ (d : Tensor) (s : Option Tensor) (sc : ℚ) (r : Tensor × ℚ)
        (st : List Tensor),
      m.initAux d s sc = some (r, st) → st = [] ∧ m.initPass d s sc = some r) ∧
    (∀ (m : MaCowM) (y : Tensor) (s : Option Tensor) (r : Tensor × ℚ)
      (st : List Tensor),
      m.backwardAux y s = some (r, st) → st = [] ∧ m.backward y s = some r) ∧
    (∀ (b : MaCowInternalBlockM) (y : Tensor) (s : Option Tensor)
      (r : Tensor × ℚ) (st : List Tensor),
      b.backwardAux y s = some (r, st) → st = [] ∧ b.backward y s = some r) ∧
    (∀ (m : MaCowM) (x : Tensor) (s : Option Tensor) (r : Tensor × ℚ)
      (st : List Tensor),
      m.forwardAux x s = some (r, st) → st ≠ [] → m.forward x s = none) ∧
    (∀ (m : MaCowM) (d : Tensor) (s : Option Tensor) (sc : ℚ) (r : Tensor × ℚ)
      (st : List Tensor),
      m.initAux d s sc = some (r, st) → st ≠ [] → m.initPass d s sc = none) := by
  refine ⟨?_, ?_, ?_, ?_, ?_, ?_⟩
  · intro m hm x s r st h
    have hl := macowFwdAux_stack m h
    have hst : st = [] := List.eq_nil_of_length_eq_zero (by omega)
    subst hst
    exact ⟨rfl, by simp [MaCowM.forward, h]⟩
  · intro m hm d s sc r st h
    have hl := macowInitAux_stack m h
    have hst : st = [] := List.eq_nil_of_length_eq_zero (by omega)
    subst hst
    exact ⟨rfl, by simp [MaCowM.initPass, h]⟩
  · intro m y s r st h
    have hst := macowBwdAux_stack m h
    subst hst
    exact ⟨rfl, by simp [MaCowM.backward, h]⟩
  · intro b y s r st h
    have hst := internalBwdAux_stack b h
    subst hst
    exact ⟨rfl, by simp [MaCowInternalBlockM.backward, h]⟩
  · intro m x s r st h hne
    cases st with
    | nil => exact absurd rfl hne
    | cons a tl => simp [MaCowM.forward, h]
  · intro m d s sc r st h hne
    cases st with
    | nil => exact absurd rfl hne
    | cons a tl => simp [MaCowM.initPass, h]

/-- Claim C6 (amended): the channel count recorded by the top block of a
constructed pyramid is `macowTopChannels`: starting from the input channel
count, every internal level first quadruples the count (squeeze) and then
subtracts its leaked channels `num_layers * (4c / factor)`, and the top
level quadruples once more.  It equals `in_channels * 4 ^ (levels - 1)`
only when no internal level leaks. -/
theorem claim_C6 (gS gL : ℕ → ℕ → List MaCowStepM) (gP : ℕ → ℕ → CFlow)
    (levels : ℕ) (nsteps : List NumCfg) (cIn : ℕ) (factors : List ℕ)
    (bottom : Bool) (m : MaCowM)
    (h : mkMaCow gS gL gP levels nsteps cIn factors bottom = some m) :
    m.topChannels = macowTopChannels cIn (mkMaCowCfg nsteps factors bottom) :=
  (mkMaCow_spec gS gL gP levels nsteps cIn factors bottom h).2.2.2

/-- Counterexample to the spec's C6 sentence: a three-level pyramid over one
input channel whose internal level leaks channels has `8` top channels, not
`1 * 4 ^ (3 - 1) = 16`. -/
theorem claim_C6_counterexample :
    (mkMaCow (fun _ _ => []) (fun _ _ => []) (fun _ _ => idCFlow) 3
        [.single 0, .multi [0], .single 0] 1 [2] true).map MaCowM.topChannels
      = some 8 ∧ (8 : ℕ) ≠ 1 * 4 ^ (3 - 1) := by
  constructor
  · rfl
  · decide

/-- Witness for the amended C6 at the concrete three-level pyramid. -/
theorem claim_C6_witness :
    mkMaCow (fun _ _ => []) (fun _ _ => []) (fun _ _ => idCFlow) 3
        [.single 0, .multi [0], .single 0] 1 [2] true = some pyr3 ∧
    pyr3.topChannels
      = macowTopChannels 1 (mkMaCowCfg [.single 0, .multi [0], .single 0] [2] true) :=
  ⟨by rfl, claim_C6 (fun _ _ => []) (fun _ _ => []) (fun _ _ => idCFlow) 3
      [.single 0, .multi [0], .single 0] 1 [2] true pyr3 (by rfl)⟩

/-- Claim C7: a constructed `MaCowUnit` applies, in order, normalization,
masked conv A, masked conv B, normalization, masked conv C and masked conv
D — the last two built on the transposed kernel — summing the six
log-determinants; its backward applies the six inverses in exactly the
reverse order; and a `MaCowStep` is exactly two units followed by the Glow
coupling step, forward running `unit1`, `unit2`, `glow` and backward
running `glow`, `unit2`, `unit1`. -/
theorem claim_C7 (mkNorm : ℕ → AFlow) (mkConv : ℕ × ℕ → MCOrder → CFlow)
    (k : ℕ × ℕ) (u1 u2 : MaCowUnitM) (glow : CFlow) (x y : Tensor)
    (s : Option Tensor) :
    ((mkMaCowUnit mkNorm mkConv k).forward x s =
      (let p1 := (mkNorm 1).forward x
       let p2 := (mkConv (k.1, k.2) .A).forward p1.1 s
       let p3 := (mkConv (k.1, k.2) .B).forward p2.1 s
       let p4 := (mkNorm 2).forward p3.1
       let p5 := (mkConv (k.2, k.1) .C).forward p4.1 s
       let p6 := (mkConv (k.2, k.1) .D).forward p5.1 s
       (p6.1, p1.2 + p2.2 + p3.2 + p4.2 + p5.2 + p6.2))) ∧
    ((mkMaCowUnit mkNorm mkConv k).backward y s =
      (let q1 := (mkConv (k.2, k.1) .D).backward y s
       let q2 := (mkConv (k.2, k.1) .C).backward q1.1 s
       let q3 := (mkNorm 2).backward q2.1
       let q4 := (mkConv (k.1, k.2) .B).backward q3.1 s
       let q5 := (mkConv (k.1, k.2) .A).backward q4.1 s
       let q6 := (mkNorm 1).backward q5.1
       (q6.1, q1.2 + q2.2 + q3.2 + q4.2 + q5.2 + q6.2))) ∧
    (mkMaCowStep u1 u2 glow).units = [u1, u2] ∧
    ((mkMaCowStep u1 u2 glow).forward x s =
      (let a1 := u1.forward x s
       let a2 := u2.forward a1.1 s
       let g := glow.forward a2.1 s
       (g.1, a1.2 + a2.2 + g.2))) ∧
    ((mkMaCowStep u1 u2 glow).backward y s =
      (let g := glow.backward y s
       let b2 := u2.backward g.1 s
       let b1 := u1.backward b2.1 s
       (b1.1, g.2 + b2.2 + b1.2))) := by
  refine ⟨rfl, rfl, rfl, ?_, ?_⟩
  · simp only [mkMaCowStep, MaCowStepM.forward, runFwd, List.foldl]
    simp only [Prod.mk.injEq, true_and]
    ring
  · simp only [mkMaCowStep, MaCowStepM.backward, List.reverse_cons,
      List.reverse_nil, List.nil_append, List.cons_append, runFwd, List.foldl]

/-- Claim C8: `VDeQuantFlowGenModel.dequantize` returns `batch` rows of
`nsamples` entries; entry `(b, j)` of the noise output is the dequantizer
applied to noise sample `b * nsamples + j` conditioned on image `b` (the
broadcast does not reorder samples), and entry `(b, j)` of the posterior
output is `-1/2 * ||eps||^2 - 1/2 * d * log(2*pi) - logdet` for the same
pair. -/
theorem claim_C8 (dq : Tensor → Tensor → Tensor × ℚ) (log2pi : ℚ)
    (epsilon x : List Tensor) (nsamples b j : ℕ)
    (hn : 1 ≤ nsamples) (hb : b < x.length) (hj : j < nsamples)
    (hlen : epsilon.length = x.length * nsamples) :
    (vDequantize dq log2pi epsilon x nsamples).1.length = x.length ∧
    (vDequantize dq log2pi epsilon x nsamples).2.length = x.length ∧
    ((vDequantize dq log2pi epsilon x nsamples).1[b]?).map List.length
      = some nsamples ∧
    ((vDequantize dq log2pi epsilon x nsamples).1[b]?).bind (fun row => row[j]?)
      = (epsilon[b * nsamples + j]?).bind (fun e =>
          (x[b]?).map (fun xr => (dq e xr).1)) ∧
    ((vDequantize dq log2pi epsilon x nsamples).2[b]?).bind (fun row => row[j]?)
      = (epsilon[b * nsamples + j]?).bind (fun e =>
          (x[b]?).map (fun xr =>
            (((Tensor.flatten e).map (fun v => v * v)).sum
              + log2pi * (Tensor.flatten e).length) * (-(1 / 2)) - (dq e xr).2)) := by
  rw [vDequantize]
  dsimp only
  have hxblen :
      (if 1 < nsamples then (x.map (List.replicate nsamples)).join else x).length
        = x.length * nsamples := broadcast_length x nsamples hn
  have hxbat :
      (if 1 < nsamples then (x.map (List.replicate nsamples)).join
        else x)[b * nsamples + j]? = x[b]? := broadcast_getAt x nsamples b j hn hj
  have hmul : (b + 1) * nsamples = b * nsamples + nsamples := by ring
  have hble : (b + 1) * nsamples ≤ x.length * nsamples :=
    Nat.mul_le_mul_right nsamples hb
  refine ⟨chunkRows_length _ _ _, chunkRows_length _ _ _, ?_, ?_, ?_⟩
  · rw [chunkRows_getAt x.length nsamples _ b hb]
    simp only [Option.map_some', Option.some.injEq, List.length_take,
      List.length_drop, List.length_map, List.length_zipWith, hxblen, hlen]
    omega
  · rw [chunkRows_getAt2 x.length nsamples _ b j hb hj]
    rw [List.getElem?_map, zipWith_getAt, hxbat]
    cases epsilon[b * nsamples + j]? with
    | none => simp
    | some e =>
      cases x[b]? with
      | none => simp
      | some xr => simp
  · rw [chunkRows_getAt2 x.length nsamples _ b j hb hj]
    rw [zipWith_getAt, List.getElem?_map, zipWith_getAt, hxbat]
    cases epsilon[b * nsamples + j]? with
    | none => simp
    | some e =>
      cases x[b]? with
      | none => simp
      | some xr => simp

/-- Witness for C8 at a concrete two-image batch with two noise samples per
image. -/
theorem claim_C8_witness :
    (1 ≤ 2 ∧ 1 < 2 ∧ 1 < 2 ∧ eps4.length = xs2.length * 2) ∧
    (((vDequantize dq0 7 eps4 xs2 2).1[1]?).bind (fun row => row[1]?)
      = (eps4[1 * 2 + 1]?).bind (fun e =>
          (xs2[1]?).map (fun xr => (dq0 e xr).1))) := by
  refine ⟨by decide, ?_⟩
  exact (claim_C8 dq0 7 eps4 xs2 2 1 1 (by decide) (by decide) (by decide)
    (by decide)).2.2.2.1

end Macow
